import Mathlib

/-!
# Audio output core: dates, buffers and FIFOs

A shallow embedding of `src/audio_output/audio_output.c` (VLC, 2002) and the
properties of its rational clock (`audio_date_t`) and of its buffer FIFO
(`aout_fifo_t`).

Conventions of the embedding.

* `mtime_t` is the signed 64-bit count of microseconds. Signed overflow is
  undefined in C, so a date is a mathematical integer (`Int`); the theorems
  speak about the executions in which dates stay representable.
* `u32` arguments are reduced modulo `2 ^ 32` on entry, as the conversion at a
  C call site does.
* The declaration of `audio_date_t` is in a header that is not part of the
  source files at hand. The width in bits of its `i_remainder` field is
  therefore a parameter `w` of the clock operations; the store into that field
  reduces modulo `2 ^ w`. The divider is handed over as a `u32`, and `w = 32`
  is the instance in which the remainder has the type of the divider it is
  compared with.
* Buffers live in a memory indexed by address (`Nat`); a pointer to a buffer
  is an `Option Nat` with `none` for `NULL`.
* The constants `AOUT_CHAN_*`, `AOUT_FMT_*` and `AOUT_MAX_PREPARE_TIME`, the
  width `sz` of `size_t` and the width `sw` of the `i_nb_samples` field of a
  buffer come from declarations outside the source files and are parameters
  as well. A `switch` is an if-chain in the order of its labels.
* A function that can write through a null pointer returns in `Except`; what
  `aout_BufferPlay` does to the outside is a list of events.
* The instance argument `p_aout` is not used by any of the functions embedded
  here and is left out.
-/

namespace Aout

/-! ## Date management -/

/-- The record `audio_date_t`: current date in microseconds, the divider (a
sample rate) and the remainder carried from one increment to the next. -/
structure audio_date_t where
  date : Int
  i_divider : Nat
  i_remainder : Nat
  deriving DecidableEq, Repr

/-- The function `aout_DateInit`: date and remainder are cleared, the divider
is stored. -/
def aout_DateInit (p_date : audio_date_t) (i_divider : Nat) : audio_date_t :=
  { p_date with date := 0, i_divider := i_divider % 2 ^ 32, i_remainder := 0 }

/-- The function `aout_DateSet`: the date is overwritten, the remainder
cleared. -/
def aout_DateSet (p_date : audio_date_t) (new_date : Int) : audio_date_t :=
  { p_date with date := new_date, i_remainder := 0 }

/-- The function `aout_DateMove`: the date is shifted, nothing else moves. -/
def aout_DateMove (p_date : audio_date_t) (difference : Int) : audio_date_t :=
  { p_date with date := p_date.date + difference }

/-- The function `aout_DateGet`. -/
def aout_DateGet (p_date : audio_date_t) : Int :=
  p_date.date

/-- The function `aout_DateIncrement`, returning the updated record and the
returned date. The dividend `(mtime_t)i_nb_samples * 1000000` is below `2 ^ 52`
and non-negative, so the quotient and the modulus of C are those of `Nat`.
The sum stored into `i_remainder` is reduced to the `w` bits of that field
before the comparison with the divider. A divider of zero makes the division
undefined in C; the theorems that rest on the quotient assume a divider
`> 0`, as `init` requires of the rate. -/
def aout_DateIncrement (w : Nat) (p_date : audio_date_t) (i_nb_samples : Nat) :
    audio_date_t × Int :=
  let i_dividend : Nat := (i_nb_samples % 2 ^ 32) * 1000000
  let date1 : Int := p_date.date + ((i_dividend / p_date.i_divider : Nat) : Int)
  let rem1 : Nat := (p_date.i_remainder + i_dividend % p_date.i_divider) % 2 ^ w
  if p_date.i_divider ≤ rem1 then
    ({ p_date with date := date1 + 1,
                   i_remainder := (rem1 - p_date.i_divider) % 2 ^ w }, date1 + 1)
  else
    ({ p_date with date := date1, i_remainder := rem1 }, date1)

/-- A run of `aout_DateIncrement` calls, one per sample count of the list, in
order. -/
def incrementAll (w : Nat) : audio_date_t → List Nat → audio_date_t
  | p, [] => p
  | p, n :: ns => incrementAll w (aout_DateIncrement w p n).1 ns

/-- Rounding to the nearest integer (halves upwards) of the fraction `a / b`. -/
def roundDiv (a b : Nat) : Nat :=
  (2 * a + b) / (2 * b)

/-! ## Buffers and memory -/

/-- The fields of `aout_buffer_t` that the functions below read or write.
The link `p_next` is the address of the next buffer of the queue, or `none`. -/
structure aout_buffer_t where
  i_nb_samples : Nat
  i_nb_bytes : Nat
  start_date : Int
  end_date : Int
  p_next : Option Nat
  deriving DecidableEq, Repr

/-- The value of `pp_last`, a pointer to a buffer pointer: either the address
of the `p_first` field of the FIFO itself, or the address of the `p_next`
field of the buffer at the given address. -/
inductive aout_buffer_pp where
  | fifo_first : aout_buffer_pp
  | buf_next (a : Nat) : aout_buffer_pp
  deriving DecidableEq, Repr

/-- The record `aout_fifo_t`: head pointer, tail insertion pointer and the
clock `end_date`. -/
structure aout_fifo_t where
  p_first : Option Nat
  pp_last : aout_buffer_pp
  end_date : audio_date_t
  deriving DecidableEq, Repr

/-- The state the FIFO functions work on: the buffers by address, the log of
the buffers handed to `aout_BufferFree` (oldest first), and the FIFO. -/
@[ext]
structure aout_state where
  bufs : Nat → aout_buffer_t
  freed : List Nat
  fifo : aout_fifo_t

/-- Write of one buffer record at address `a`. -/
def setBuf (s : aout_state) (a : Nat) (b : aout_buffer_t) : aout_state :=
  { s with bufs := Function.update s.bufs a b }

/-- The assignment `*pp = v` for a pointer-to-pointer `pp`. -/
def storePP (s : aout_state) (pp : aout_buffer_pp) (v : Option Nat) : aout_state :=
  match pp with
  | .fifo_first => { s with fifo := { s.fifo with p_first := v } }
  | .buf_next a => setBuf s a { s.bufs a with p_next := v }

/-- Modelled from the spec: the macro `aout_BufferFree` is defined in a header
that is not among the source files. Following the spec's `release(buffer)`
("returns the buffer's storage to the allocation strategy"), a release is
recorded in the log `freed`; the bytes of the released buffer stay where
they are. -/
def aout_BufferFree (s : aout_state) (p_buffer : Nat) : aout_state :=
  { s with freed := s.freed ++ [p_buffer] }

/-! ## FIFO management -/

/-- The function `aout_FifoInit`. -/
def aout_FifoInit (s : aout_state) (i_rate : Nat) : aout_state :=
  { s with fifo := { p_first := none, pp_last := .fifo_first,
                     end_date := aout_DateInit s.fifo.end_date (i_rate % 2 ^ 32) } }

/-- The function `aout_FifoPush`, statement by statement. -/
def aout_FifoPush (w : Nat) (s : aout_state) (p_buffer : Nat) : aout_state :=
  -- *p_fifo->pp_last = p_buffer;
  let s1 := storePP s s.fifo.pp_last (some p_buffer)
  -- p_fifo->pp_last = &p_buffer->p_next;
  let s2 : aout_state := { s1 with fifo := { s1.fifo with pp_last := .buf_next p_buffer } }
  -- *p_fifo->pp_last = NULL;
  let s3 := storePP s2 s2.fifo.pp_last none
  if aout_DateGet s3.fifo.end_date ≠ 0 then
    let s4 := setBuf s3 p_buffer
      { s3.bufs p_buffer with start_date := aout_DateGet s3.fifo.end_date }
    let r := aout_DateIncrement w s4.fifo.end_date (s4.bufs p_buffer).i_nb_samples
    let s5 : aout_state := { s4 with fifo := { s4.fifo with end_date := r.1 } }
    setBuf s5 p_buffer { s5.bufs p_buffer with end_date := r.2 }
  else
    { s3 with fifo := { s3.fifo with
        end_date := aout_DateSet s3.fifo.end_date (s3.bufs p_buffer).end_date } }

/-- The loop shared by `aout_FifoSet` and `aout_FifoDestroy`: starting at
`p_buffer`, read the link, release the buffer, go on with the link. The loop
of the source is unbounded; here it gives up with `none` when `fuel` rounds
did not reach `NULL`. -/
def freeLoop : Nat → aout_state → Option Nat → Option aout_state
  | _, s, none => some s
  | 0, _, some _ => none
  | fuel + 1, s, some p_buffer =>
      let p_next := (s.bufs p_buffer).p_next
      freeLoop fuel (aout_BufferFree s p_buffer) p_next

/-- The function `aout_FifoSet`. -/
def aout_FifoSet (fuel : Nat) (s : aout_state) (date : Int) : Option aout_state :=
  let s1 : aout_state := { s with fifo := { s.fifo with
      end_date := aout_DateSet s.fifo.end_date date } }
  match freeLoop fuel s1 s1.fifo.p_first with
  | none => none
  | some s2 => some { s2 with fifo := { s2.fifo with p_first := none, pp_last := .fifo_first } }

/-- The loop of `aout_FifoMoveDates`, with fuel as in `freeLoop`. -/
def moveLoop (difference : Int) : Nat → aout_state → Option Nat → Option aout_state
  | _, s, none => some s
  | 0, _, some _ => none
  | fuel + 1, s, some p_buffer =>
      let s1 := setBuf s p_buffer
        { s.bufs p_buffer with start_date := (s.bufs p_buffer).start_date + difference }
      let s2 := setBuf s1 p_buffer
        { s1.bufs p_buffer with end_date := (s1.bufs p_buffer).end_date + difference }
      moveLoop difference fuel s2 (s2.bufs p_buffer).p_next

/-- The function `aout_FifoMoveDates`. -/
def aout_FifoMoveDates (fuel : Nat) (s : aout_state) (difference : Int) : Option aout_state :=
  let s1 : aout_state := { s with fifo := { s.fifo with
      end_date := aout_DateMove s.fifo.end_date difference } }
  moveLoop difference fuel s1 s1.fifo.p_first

/-- The function `aout_FifoNextStart`. -/
def aout_FifoNextStart (s : aout_state) : Int :=
  aout_DateGet s.fifo.end_date

/-- The function `aout_FifoPop`: the returned pointer and the state after. -/
def aout_FifoPop (s : aout_state) : Option Nat × aout_state :=
  match s.fifo.p_first with
  | none => (none, s)
  | some p_buffer =>
      let s1 : aout_state := { s with fifo := { s.fifo with p_first := (s.bufs p_buffer).p_next } }
      if s1.fifo.p_first = none then
        (some p_buffer, { s1 with fifo := { s1.fifo with pp_last := .fifo_first } })
      else
        (some p_buffer, s1)

/-- The function `aout_FifoDestroy`: the release loop and nothing after it. -/
def aout_FifoDestroy (fuel : Nat) (s : aout_state) : Option aout_state :=
  freeLoop fuel s s.fifo.p_first

/-! ## Queues as seen from outside -/

/-- Following the links from `p` runs through the addresses `l`, in order,
and arrives at `q`. -/
def Seg (m : Nat → aout_buffer_t) : Option Nat → List Nat → Option Nat → Prop
  | p, [], q => p = q
  | p, a :: l, q => p = some a ∧ Seg m (m a).p_next l q

/-- The value `pp_last` must have when the queue holds the buffers `l`. -/
def tailRef : List Nat → aout_buffer_pp
  | [] => .fifo_first
  | [a] => .buf_next a
  | _ :: b :: l => tailRef (b :: l)

/-- The state `s` holds a queue made of the buffers `l`, head first: the
links from `p_first` run through `l` and end on `NULL`, no buffer is linked
twice, and `pp_last` designates the link of the last buffer. -/
def IsQueue (s : aout_state) (l : List Nat) : Prop :=
  Seg s.bufs s.fifo.p_first l none ∧ l.Nodup ∧ s.fifo.pp_last = tailRef l

/-- Both dates of a buffer shifted by `d`, as one round of the loop of
`aout_FifoMoveDates` leaves them. -/
def shiftBuf (d : Int) (b : aout_buffer_t) : aout_buffer_t :=
  { b with start_date := b.start_date + d, end_date := b.end_date + d }

/-- A memory for examples: the buffer at address `a` holds `1024 + a` samples
and carries the producer's dates `500 + a` and `900 + a`; nothing was
released, the FIFO was never initialised. -/
def demo : aout_state :=
  { bufs := fun a => { i_nb_samples := 1024 + a, i_nb_bytes := 4096,
                       start_date := 500 + (a : Int), end_date := 900 + (a : Int),
                       p_next := some a },
    freed := [],
    fifo := { p_first := some 7, pp_last := .buf_next 7,
              end_date := { date := 3, i_divider := 1, i_remainder := 0 } } }

/-- An operation on a queue: push the buffer at an address, or pop. -/
inductive FifoOp where
  | push (p_buffer : Nat) : FifoOp
  | pop : FifoOp
  deriving DecidableEq, Repr

/-- Run a sequence of operations; the results of the pops are collected in
the order of the calls. -/
def runOps (w : Nat) : List FifoOp → aout_state → aout_state × List (Option Nat)
  | [], s => (s, [])
  | .push b :: ops, s => runOps w ops (aout_FifoPush w s b)
  | .pop :: ops, s =>
      let r := runOps w ops (aout_FifoPop s).2
      (r.1, (aout_FifoPop s).1 :: r.2)

/-- Pushes of the buffers of a list, in order. -/
def pushAll (w : Nat) : aout_state → List Nat → aout_state
  | s, [] => s
  | s, b :: bs => pushAll w (aout_FifoPush w s b) bs

/-- The buffers pushed by a sequence of operations, in order. -/
def pushedBy : List FifoOp → List Nat
  | [] => []
  | .push b :: ops => b :: pushedBy ops
  | .pop :: ops => pushedBy ops

/-- The ownership rule of the data model ("exactly one queue or one in-flight
decoder owns a buffer at a time"): starting with the buffers `q` in the
queue, no operation of the sequence pushes a buffer that is in the queue at
that moment. -/
def ownershipOk : List Nat → List FifoOp → Bool
  | _, [] => true
  | q, .push b :: ops => decide (b ∉ q) && ownershipOk (q ++ [b]) ops
  | q, .pop :: ops => ownershipOk q.tail ops

/-! ## Formats management -/

/-- The fields of `audio_sample_format_t` that the functions below read or
write. -/
structure audio_sample_format_t where
  i_format : Nat
  i_rate : Nat
  i_channels : Nat
  i_bytes_per_frame : Nat
  i_frame_length : Nat
  deriving DecidableEq, Repr

/-- The constants `AOUT_CHAN_*`. They are defined in a header that is not
among the source files, so their values are parameters of the model. -/
structure aout_chan_consts where
  AOUT_CHAN_MASK : Nat
  AOUT_CHAN_LFE : Nat
  AOUT_CHAN_CHANNEL1 : Nat
  AOUT_CHAN_CHANNEL2 : Nat
  AOUT_CHAN_MONO : Nat
  AOUT_CHAN_CHANNEL : Nat
  AOUT_CHAN_STEREO : Nat
  AOUT_CHAN_DOLBY : Nat
  AOUT_CHAN_3F : Nat
  AOUT_CHAN_2F1R : Nat
  AOUT_CHAN_3F1R : Nat
  AOUT_CHAN_2F2R : Nat
  AOUT_CHAN_3F2R : Nat
  deriving DecidableEq, Repr

/-- The case labels of the `switch` of `aout_FormatNbChannels`, in the order
of the source. A C compiler rejects a `switch` with two equal labels, so any
assignment of the constants the source compiles with has them distinct. -/
def chanLabels (K : aout_chan_consts) : List Nat :=
  [K.AOUT_CHAN_CHANNEL1, K.AOUT_CHAN_CHANNEL2, K.AOUT_CHAN_MONO,
   K.AOUT_CHAN_CHANNEL, K.AOUT_CHAN_STEREO, K.AOUT_CHAN_DOLBY,
   K.AOUT_CHAN_3F, K.AOUT_CHAN_2F1R, K.AOUT_CHAN_3F1R, K.AOUT_CHAN_2F2R,
   K.AOUT_CHAN_3F2R]

/-- The function `aout_FormatNbChannels`: the `switch` on the masked layout,
then the test of the LFE bit. -/
def aout_FormatNbChannels (K : aout_chan_consts) (p_format : audio_sample_format_t) : Nat :=
  let x := p_format.i_channels &&& K.AOUT_CHAN_MASK
  let i_nb : Nat :=
    if x = K.AOUT_CHAN_CHANNEL1 ∨ x = K.AOUT_CHAN_CHANNEL2 ∨ x = K.AOUT_CHAN_MONO then 1
    else if x = K.AOUT_CHAN_CHANNEL ∨ x = K.AOUT_CHAN_STEREO ∨ x = K.AOUT_CHAN_DOLBY then 2
    else if x = K.AOUT_CHAN_3F ∨ x = K.AOUT_CHAN_2F1R then 3
    else if x = K.AOUT_CHAN_3F1R ∨ x = K.AOUT_CHAN_2F2R then 4
    else if x = K.AOUT_CHAN_3F2R then 5
    else 0
  if p_format.i_channels &&& K.AOUT_CHAN_LFE ≠ 0 then i_nb + 1 else i_nb

/-- The table of the spec, by its words: 1 for the single-channel layouts
(channel1, channel2, mono), 2 for the dual-channel layouts (dual-mono, stereo,
dolby), 3 for 3-front and 2-front-1-rear, 4 for 3-front-1-rear and
2-front-2-rear, 5 for 3-front-2-rear, 0 for an unrecognized layout. -/
def specChannelBase (K : aout_chan_consts) (layout : Nat) : Nat :=
  if layout ∈ [K.AOUT_CHAN_CHANNEL1, K.AOUT_CHAN_CHANNEL2, K.AOUT_CHAN_MONO] then 1
  else if layout ∈ [K.AOUT_CHAN_CHANNEL, K.AOUT_CHAN_STEREO, K.AOUT_CHAN_DOLBY] then 2
  else if layout ∈ [K.AOUT_CHAN_3F, K.AOUT_CHAN_2F1R] then 3
  else if layout ∈ [K.AOUT_CHAN_3F1R, K.AOUT_CHAN_2F2R] then 4
  else if layout ∈ [K.AOUT_CHAN_3F2R] then 5
  else 0

/-- The constants `AOUT_FMT_*`, parameters of the model for the same reason
as the `AOUT_CHAN_*`. -/
structure aout_fmt_consts where
  AOUT_FMT_U8 : Nat
  AOUT_FMT_S8 : Nat
  AOUT_FMT_U16_LE : Nat
  AOUT_FMT_U16_BE : Nat
  AOUT_FMT_S16_LE : Nat
  AOUT_FMT_S16_BE : Nat
  AOUT_FMT_FLOAT32 : Nat
  AOUT_FMT_FIXED32 : Nat
  AOUT_FMT_SPDIF : Nat
  AOUT_FMT_A52 : Nat
  AOUT_FMT_DTS : Nat
  deriving DecidableEq, Repr

/-- The labels of the fixed-width PCM cases of `aout_FormatPrepare`. -/
def pcmLabels (F : aout_fmt_consts) : List Nat :=
  [F.AOUT_FMT_U8, F.AOUT_FMT_S8, F.AOUT_FMT_U16_LE, F.AOUT_FMT_U16_BE,
   F.AOUT_FMT_S16_LE, F.AOUT_FMT_S16_BE, F.AOUT_FMT_FLOAT32, F.AOUT_FMT_FIXED32]

/-- The labels of the pass-through cases of `aout_FormatPrepare`. -/
def passLabels (F : aout_fmt_consts) : List Nat :=
  [F.AOUT_FMT_SPDIF, F.AOUT_FMT_A52, F.AOUT_FMT_DTS]

/-- The value of `i_result` at the end of the `switch` of
`aout_FormatPrepare`, or `none` where the `switch` returns from the
function. -/
def prepareResult (F : aout_fmt_consts) (i_format : Nat) : Option Nat :=
  if i_format = F.AOUT_FMT_U8 ∨ i_format = F.AOUT_FMT_S8 then some 1
  else if i_format = F.AOUT_FMT_U16_LE ∨ i_format = F.AOUT_FMT_U16_BE
      ∨ i_format = F.AOUT_FMT_S16_LE ∨ i_format = F.AOUT_FMT_S16_BE then some 2
  else if i_format = F.AOUT_FMT_FLOAT32 ∨ i_format = F.AOUT_FMT_FIXED32 then some 4
  else if i_format = F.AOUT_FMT_SPDIF ∨ i_format = F.AOUT_FMT_A52
      ∨ i_format = F.AOUT_FMT_DTS then none
  else some 0

/-- The function `aout_FormatPrepare`. -/
def aout_FormatPrepare (F : aout_fmt_consts) (K : aout_chan_consts)
    (p_format : audio_sample_format_t) : audio_sample_format_t :=
  match prepareResult F p_format.i_format with
  | none => p_format
  | some i_result =>
      { p_format with
          i_bytes_per_frame := i_result * aout_FormatNbChannels K p_format,
          i_frame_length := 1 }

/-- An assignment of the `AOUT_CHAN_*` for examples: the channel codes of the
A/52 decoder, whose names these constants mirror (mask 15, LFE bit 16). -/
def demoChan : aout_chan_consts :=
  { AOUT_CHAN_MASK := 15, AOUT_CHAN_LFE := 16,
    AOUT_CHAN_CHANNEL := 0, AOUT_CHAN_MONO := 1, AOUT_CHAN_STEREO := 2,
    AOUT_CHAN_3F := 3, AOUT_CHAN_2F1R := 4, AOUT_CHAN_3F1R := 5,
    AOUT_CHAN_2F2R := 6, AOUT_CHAN_3F2R := 7,
    AOUT_CHAN_CHANNEL1 := 8, AOUT_CHAN_CHANNEL2 := 9, AOUT_CHAN_DOLBY := 10 }

/-- An assignment of the `AOUT_FMT_*` for examples: the numbers 1 to 11 in the
order of the source. -/
def demoFmt : aout_fmt_consts :=
  { AOUT_FMT_U8 := 1, AOUT_FMT_S8 := 2, AOUT_FMT_U16_LE := 3, AOUT_FMT_U16_BE := 4,
    AOUT_FMT_S16_LE := 5, AOUT_FMT_S16_BE := 6, AOUT_FMT_FLOAT32 := 7,
    AOUT_FMT_FIXED32 := 8, AOUT_FMT_SPDIF := 9, AOUT_FMT_A52 := 10, AOUT_FMT_DTS := 11 }

/-! ## Buffer management (interface to the decoders) -/

/-- The way a call can go wrong instead of returning. -/
inductive aout_fault where
  | null_dereference : aout_fault
  deriving DecidableEq, Repr

/-- The assignment `p->field = v` of one field through a buffer pointer: a
fault when the pointer is `NULL`. -/
def writeBuf (s : aout_state) (p : Option Nat) (f : aout_buffer_t → aout_buffer_t) :
    Except aout_fault aout_state :=
  match p with
  | none => .error .null_dereference
  | some a => .ok (setBuf s a (f (s.bufs a)))

/-- The function `aout_BufferNew`, statement by statement; the result is the
returned pointer and the state, or a fault.

Modelled from the spec: the macro `aout_BufferAlloc` is defined in a header
that is not among the source files. Following the spec ("requests
heap-backed storage sized for that duration from an allocation strategy
associated with the input stream"), the strategy is the parameter
`aout_BufferAlloc`, from the requested duration to the address of the new
buffer, `none` when it cannot satisfy the request.

`sz` is the width of `size_t` and `sw` the width of the `i_nb_samples` field
of a buffer, both fixed by declarations outside the source files. The
duration is a quotient of non-negative quantities, computed in `mtime_t`. -/
def aout_BufferNew (sz sw : Nat) (aout_BufferAlloc : Int → Option Nat) (s : aout_state)
    (input : audio_sample_format_t) (i_nb_samples : Nat) :
    Except aout_fault (Option Nat × aout_state) :=
  let n := i_nb_samples % 2 ^ sz
  let duration : Int := ((1000000 * n / input.i_rate : Nat) : Int)
  let p_buffer := aout_BufferAlloc duration
  do
    -- p_buffer->i_nb_samples = i_nb_samples;
    let s1 ← writeBuf s p_buffer (fun b => { b with i_nb_samples := n % 2 ^ sw })
    -- p_buffer->i_nb_bytes = i_nb_samples * i_bytes_per_frame / i_frame_length;
    let s2 ← writeBuf s1 p_buffer (fun b => { b with
      i_nb_bytes := (n * input.i_bytes_per_frame % 2 ^ sz) / input.i_frame_length })
    match p_buffer with
    | none =>
        -- msg_Err( p_aout, "NULL buffer !" );
        pure (none, s2)
    | some a =>
        -- p_buffer->start_date = p_buffer->end_date = 0;
        pure (some a, setBuf s2 a { s2.bufs a with start_date := 0, end_date := 0 })

/-- What `aout_BufferPlay` does that can be seen from outside, in order: the
warning, the release of a buffer, an access to a field of a buffer, the
pacing wait with its deadline, the hand-over of a buffer to
`aout_InputPlay`, the run of the mixer. -/
inductive aout_event where
  | msg_Warn : aout_event
  | BufferFree (p_buffer : Nat) : aout_event
  | access (p_buffer : Nat) : aout_event
  | mwait (date : Int) : aout_event
  | InputPlay (p_buffer : Nat) : aout_event
  | MixerRun : aout_event
  deriving DecidableEq, Repr

/-- The outcome of `aout_BufferPlay`: the events in order, the value of the
`return` statement that ended the call (`none` when the end of the function
body was reached without one), and the state. -/
structure aout_play where
  trace : List aout_event
  ret : Option Int
  state : aout_state

/-- The function `aout_BufferPlay`, statement by statement.

The functions `mwait`, `aout_InputPlay` and `aout_MixerRun` and the constant
`AOUT_MAX_PREPARE_TIME` are not among the source files: the calls are
recorded as events, the status returned by `aout_InputPlay` and the constant
are parameters. The product `p_buffer->i_nb_samples * 1000000` is computed
in the unsigned type of the `i_nb_samples` field, `sw` bits wide, before the
cast to `mtime_t`. -/
def aout_BufferPlay (sw : Nat) (AOUT_MAX_PREPARE_TIME : Int)
    (aout_InputPlay : aout_state → Nat → Int) (s : aout_state)
    (input : audio_sample_format_t) (p_buffer : Nat) : aout_play :=
  -- if ( p_buffer->start_date == 0 )
  let r1 : aout_state × List aout_event :=
    if (s.bufs p_buffer).start_date = 0 then
      (aout_BufferFree s p_buffer,
        [.access p_buffer, .msg_Warn, .BufferFree p_buffer])
    else
      (setBuf s p_buffer { s.bufs p_buffer with
          end_date := (s.bufs p_buffer).start_date
            + (((((s.bufs p_buffer).i_nb_samples % 2 ^ sw) * 1000000 % 2 ^ sw)
                / input.i_rate : Nat) : Int) },
        [.access p_buffer, .access p_buffer])
  -- mwait( p_buffer->start_date - AOUT_MAX_PREPARE_TIME );
  let t2 := r1.2 ++ [.access p_buffer,
    .mwait ((r1.1.bufs p_buffer).start_date - AOUT_MAX_PREPARE_TIME)]
  -- if ( aout_InputPlay( p_aout, p_input, p_buffer ) == -1 ) return -1;
  if aout_InputPlay r1.1 p_buffer = -1 then
    { trace := t2 ++ [.InputPlay p_buffer], ret := some (-1), state := r1.1 }
  else
    -- aout_MixerRun( p_aout );
    { trace := t2 ++ [.InputPlay p_buffer, .MixerRun], ret := none, state := r1.1 }

/-! ## Sequences of the four queue operations -/

/-- An operation on a queue: push, pop, reset to a date, or shift of the
dates. -/
inductive QueueOp where
  | push (p_buffer : Nat) : QueueOp
  | pop : QueueOp
  | reset (date : Int) : QueueOp
  | shift (difference : Int) : QueueOp
  deriving DecidableEq, Repr

/-- Run a sequence of queue operations, each loop with the given fuel. -/
def runQueue (w fuel : Nat) : List QueueOp → aout_state → Option aout_state
  | [], s => some s
  | .push b :: ops, s => runQueue w fuel ops (aout_FifoPush w s b)
  | .pop :: ops, s => runQueue w fuel ops (aout_FifoPop s).2
  | .reset t :: ops, s => (aout_FifoSet fuel s t).bind (runQueue w fuel ops)
  | .shift d :: ops, s => (aout_FifoMoveDates fuel s d).bind (runQueue w fuel ops)

/-- The buffers in the queue after a sequence of operations that started
with the buffers `q` in the queue. -/
def queueAfter : List Nat → List QueueOp → List Nat
  | q, [] => q
  | q, .push b :: ops => queueAfter (q ++ [b]) ops
  | q, .pop :: ops => queueAfter q.tail ops
  | _, .reset _ :: ops => queueAfter [] ops
  | q, .shift _ :: ops => queueAfter q ops

/-- The ownership rule for a sequence of the four operations: no push of a
buffer that is in the queue at that moment. -/
def legalOps : List Nat → List QueueOp → Bool
  | _, [] => true
  | q, .push b :: ops => decide (b ∉ q) && legalOps (q ++ [b]) ops
  | q, .pop :: ops => legalOps q.tail ops
  | _, .reset _ :: ops => legalOps [] ops
  | q, .shift _ :: ops => legalOps q ops

/-- The last buffer pushed by a sequence of operations, `last` when it
pushes none. -/
def lastPushed : Option Nat → List QueueOp → Option Nat
  | last, [] => last
  | _, .push b :: ops => lastPushed (some b) ops
  | last, _ :: ops => lastPushed last ops

/-- The sequence is made of pushes and pops only. -/
def pushPopOnly : List QueueOp → Bool
  | [] => true
  | .push _ :: ops => pushPopOnly ops
  | .pop :: ops => pushPopOnly ops
  | _ :: _ => false

/-- The clock of the queue stands at the end date of the buffer `last`, or
at 0 when there is no such buffer: the relation the data model of the spec
states between the clock and the last buffer pushed. -/
def ClockAtLast (s : aout_state) (last : Option Nat) : Prop :=
  match last with
  | none => aout_DateGet s.fifo.end_date = 0
  | some b => aout_DateGet s.fifo.end_date = (s.bufs b).end_date

/-- Along the buffers `l`, each buffer starts at the date at which the one
before it ends. -/
def Linked (m : Nat → aout_buffer_t) : List Nat → Prop
  | [] => True
  | [_] => True
  | a :: b :: l => (m b).start_date = (m a).end_date ∧ Linked m (b :: l)

/-- The clock date is nonzero at every push of the run of a sequence of
operations from the state `s` (and no loop of the run is out of fuel). -/
def clockNonzeroAtPushes (w fuel : Nat) : List QueueOp → aout_state → Bool
  | [], _ => true
  | .push b :: ops, s =>
      decide (aout_DateGet s.fifo.end_date ≠ 0)
        && clockNonzeroAtPushes w fuel ops (aout_FifoPush w s b)
  | .pop :: ops, s => clockNonzeroAtPushes w fuel ops (aout_FifoPop s).2
  | .reset t :: ops, s =>
      match aout_FifoSet fuel s t with
      | none => false
      | some s2 => clockNonzeroAtPushes w fuel ops s2
  | .shift d :: ops, s =>
      match aout_FifoMoveDates fuel s d with
      | none => false
      | some s2 => clockNonzeroAtPushes w fuel ops s2

/-! ## The clock: helper lemmas -/

/-- Quotient and remainder of `r + N` by `D` from those of `N`, when `r < D`. -/
theorem carry_split (D r N : Nat) (hD : 0 < D) (hr : r < D) :
    (D ≤ r + N % D → (r + N) / D = N / D + 1 ∧ (r + N) % D = r + N % D - D) ∧
    (r + N % D < D → (r + N) / D = N / D ∧ (r + N) % D = r + N % D) := by
  have hm : N % D < D := Nat.mod_lt _ hD
  have hN : r + N = (r + N % D) + D * (N / D) := by
    have := Nat.mod_add_div N D
    omega
  constructor
  · intro h
    have h2 : r + N = (r + N % D - D) + D * (N / D + 1) := by
      rw [hN, Nat.mul_add, Nat.mul_one]; omega
    have hlt : r + N % D - D < D := by omega
    rw [h2, Nat.add_mul_div_left _ _ hD, Nat.add_mul_mod_self_left,
      Nat.div_eq_of_lt hlt, Nat.mod_eq_of_lt hlt]
    omega
  · intro h
    rw [hN, Nat.add_mul_div_left _ _ hD, Nat.add_mul_mod_self_left,
      Nat.div_eq_of_lt h, Nat.mod_eq_of_lt h]
    omega

/-- When twice the divider fits the remainder field, one increment adds the
quotient of `remainder + dividend` by the divider to the date and keeps the
rest as the new remainder. -/
theorem aout_DateIncrement_eq (w : Nat) (p : audio_date_t) (n : Nat)
    (hD : 0 < p.i_divider) (hr : p.i_remainder < p.i_divider)
    (hw : 2 * p.i_divider ≤ 2 ^ w) :
    aout_DateIncrement w p n =
      ({ p with
          date := p.date +
            (((p.i_remainder + (n % 2 ^ 32) * 1000000) / p.i_divider : Nat) : Int),
          i_remainder := (p.i_remainder + (n % 2 ^ 32) * 1000000) % p.i_divider },
       p.date + (((p.i_remainder + (n % 2 ^ 32) * 1000000) / p.i_divider : Nat) : Int)) := by
  obtain ⟨d, D, r⟩ := p
  simp only at hD hr hw
  have hm : ((n % 2 ^ 32) * 1000000) % D < D := Nat.mod_lt _ hD
  have hfit : r + ((n % 2 ^ 32) * 1000000) % D < 2 ^ w := by omega
  obtain ⟨hge, hlt⟩ := carry_split D r ((n % 2 ^ 32) * 1000000) hD hr
  unfold aout_DateIncrement
  simp only [Nat.mod_eq_of_lt hfit]
  by_cases h : D ≤ r + ((n % 2 ^ 32) * 1000000) % D
  · obtain ⟨h1, h2⟩ := hge h
    have hsub : r + ((n % 2 ^ 32) * 1000000) % D - D < 2 ^ w := by omega
    rw [if_pos h, h1, h2, Nat.mod_eq_of_lt hsub]
    simp [add_assoc]
  · obtain ⟨h1, h2⟩ := hlt (by omega)
    rw [if_neg h, h1, h2]

/-- The divider is never written by an increment. -/
theorem aout_DateIncrement_divider (w : Nat) (p : audio_date_t) (n : Nat) :
    (aout_DateIncrement w p n).1.i_divider = p.i_divider := by
  unfold aout_DateIncrement
  simp only
  split <;> rfl

/-- The date returned by an increment is the date stored. -/
theorem aout_DateIncrement_snd (w : Nat) (p : audio_date_t) (n : Nat) :
    (aout_DateIncrement w p n).2 = (aout_DateIncrement w p n).1.date := by
  unfold aout_DateIncrement
  simp only
  split <;> rfl

/-- Whatever the width `w`, as long as the divider itself fits in `w` bits, an
increment leaves the remainder below the divider. -/
theorem aout_DateIncrement_remainder_lt (w : Nat) (p : audio_date_t) (n : Nat)
    (hr : p.i_remainder < p.i_divider) (hw : p.i_divider < 2 ^ w) :
    (aout_DateIncrement w p n).1.i_remainder < p.i_divider := by
  obtain ⟨d, D, r⟩ := p
  simp only at hr hw
  have hD : 0 < D := by omega
  have hm : ((n % 2 ^ 32) * 1000000) % D < D := Nat.mod_lt _ hD
  have hp : 0 < 2 ^ w := by omega
  unfold aout_DateIncrement
  simp only
  split
  · rename_i h
    have h1 : (r + n % 2 ^ 32 * 1000000 % D) % 2 ^ w - D < D := by
      by_cases hfit : r + n % 2 ^ 32 * 1000000 % D < 2 ^ w
      · rw [Nat.mod_eq_of_lt hfit]; omega
      · have hlt := Nat.mod_lt (r + n % 2 ^ 32 * 1000000 % D) hp
        omega
    exact lt_of_le_of_lt (Nat.mod_le _ _) h1
  · rename_i h
    simpa using h

/-- The state reached by a run of increments: the date has advanced by the
quotient of `remainder + 1000000 * (sum of the counts)` by the divider. -/
theorem incrementAll_eq (w : Nat) (ns : List Nat) :
    ∀ (p : audio_date_t), 0 < p.i_divider → p.i_remainder < p.i_divider →
      2 * p.i_divider ≤ 2 ^ w → (∀ n ∈ ns, n < 2 ^ 32) →
      incrementAll w p ns =
        { p with
            date := p.date + (((p.i_remainder + ns.sum * 1000000) / p.i_divider : Nat) : Int),
            i_remainder := (p.i_remainder + ns.sum * 1000000) % p.i_divider } := by
  induction ns with
  | nil =>
    intro p hD hr _ _
    simp [incrementAll, Nat.div_eq_of_lt hr, Nat.mod_eq_of_lt hr]
  | cons n ns ih =>
    intro p hD hr hw hns
    have hn : n < 2 ^ 32 := hns n (List.mem_cons_self _ _)
    have hns2 : ∀ k ∈ ns, k < 2 ^ 32 := fun k hk => hns k (List.mem_cons_of_mem _ hk)
    rw [incrementAll, aout_DateIncrement_eq w p n hD hr hw, Nat.mod_eq_of_lt hn]
    obtain ⟨d, D, r⟩ := p
    simp only at hD hr hw
    rw [ih _ hD (Nat.mod_lt _ hD) hw hns2]
    simp only [List.sum_cons]
    have e : (r + n * 1000000) % D + ns.sum * 1000000 + D * ((r + n * 1000000) / D)
        = r + (n + ns.sum) * 1000000 := by
      have := Nat.mod_add_div (r + n * 1000000) D
      rw [Nat.add_mul]; omega
    have hdiv : (r + (n + ns.sum) * 1000000) / D
        = ((r + n * 1000000) % D + ns.sum * 1000000) / D + (r + n * 1000000) / D := by
      rw [← e, Nat.add_mul_div_left _ _ hD]
    have hmod : (r + (n + ns.sum) * 1000000) % D
        = ((r + n * 1000000) % D + ns.sum * 1000000) % D := by
      rw [← e, Nat.add_mul_mod_self_left]
    rw [hdiv, hmod]
    simp only [audio_date_t.mk.injEq, and_true, true_and]
    push_cast
    ring

/-- Rounding to nearest and rounding down differ by at most one. -/
theorem roundDiv_bounds (a b : Nat) (hb : 0 < b) :
    a / b ≤ roundDiv a b ∧ roundDiv a b ≤ a / b + 1 := by
  unfold roundDiv
  have h1 := Nat.mod_add_div a b
  have h2 : a % b < b := Nat.mod_lt _ hb
  constructor
  · rw [Nat.le_div_iff_mul_le (by omega)]
    have : a / b * (2 * b) = 2 * (b * (a / b)) := by ring
    omega
  · rw [← Nat.lt_succ_iff, Nat.div_lt_iff_lt_mul (by omega)]
    have : (a / b + 1).succ * (2 * b) = 2 * (b * (a / b)) + 4 * b := by
      simp only [Nat.succ_eq_add_one]; ring
    omega

/-! ## The FIFO: what a push writes -/

/-- The FIFO record after a push. -/
theorem aout_FifoPush_fifo (w : Nat) (s : aout_state) (b : Nat) :
    (aout_FifoPush w s b).fifo =
      { p_first := if s.fifo.pp_last = .fifo_first then some b else s.fifo.p_first,
        pp_last := .buf_next b,
        end_date :=
          if s.fifo.end_date.date ≠ 0 then
            (aout_DateIncrement w s.fifo.end_date (s.bufs b).i_nb_samples).1
          else aout_DateSet s.fifo.end_date (s.bufs b).end_date } := by
  unfold aout_FifoPush
  cases hpp : s.fifo.pp_last with
  | fifo_first =>
    by_cases hd : s.fifo.end_date.date = 0 <;>
      simp [storePP, setBuf, aout_DateGet, hd, hpp]
  | buf_next z =>
    by_cases hd : s.fifo.end_date.date = 0 <;> by_cases hz : b = z <;>
      simp [storePP, setBuf, aout_DateGet, hd, hpp, hz, Function.update_apply]

/-- The record of the pushed buffer after a push. -/
theorem aout_FifoPush_bufs_self (w : Nat) (s : aout_state) (b : Nat) :
    (aout_FifoPush w s b).bufs b =
      if s.fifo.end_date.date ≠ 0 then
        { s.bufs b with
            p_next := none,
            start_date := s.fifo.end_date.date,
            end_date := (aout_DateIncrement w s.fifo.end_date (s.bufs b).i_nb_samples).2 }
      else { s.bufs b with p_next := none } := by
  unfold aout_FifoPush
  cases hpp : s.fifo.pp_last with
  | fifo_first =>
    by_cases hd : s.fifo.end_date.date = 0 <;>
      simp [storePP, setBuf, aout_DateGet, hd, hpp]
  | buf_next z =>
    by_cases hd : s.fifo.end_date.date = 0 <;> by_cases hz : b = z <;>
      simp [storePP, setBuf, aout_DateGet, hd, hpp, hz, Function.update_apply]

/-- The record of any other buffer after a push: only the link of the buffer
designated by `pp_last` is rewritten. -/
theorem aout_FifoPush_bufs_other (w : Nat) (s : aout_state) (b a : Nat) (h : a ≠ b) :
    (aout_FifoPush w s b).bufs a =
      if s.fifo.pp_last = .buf_next a then { s.bufs a with p_next := some b }
      else s.bufs a := by
  unfold aout_FifoPush
  cases hpp : s.fifo.pp_last with
  | fifo_first =>
    by_cases hd : s.fifo.end_date.date = 0 <;>
      simp [storePP, setBuf, aout_DateGet, hd, hpp, Function.update_apply, h]
  | buf_next z =>
    by_cases hd : s.fifo.end_date.date = 0 <;> by_cases hz : z = a
    all_goals first
      | (subst hz; simp [storePP, setBuf, aout_DateGet, hd, hpp, Function.update_apply, h])
      | (have hz2 : ¬ a = z := fun e => hz e.symm
         simp [storePP, setBuf, aout_DateGet, hd, hpp, Function.update_apply, h, hz, hz2])

/-- A push releases nothing. -/
theorem aout_FifoPush_freed (w : Nat) (s : aout_state) (b : Nat) :
    (aout_FifoPush w s b).freed = s.freed := by
  unfold aout_FifoPush
  cases hpp : s.fifo.pp_last <;>
    by_cases hd : s.fifo.end_date.date = 0 <;>
    simp [storePP, setBuf, aout_DateGet, hd, hpp]

/-! ## The FIFO: linked segments -/

/-- A segment only depends on the links of its own buffers. -/
theorem Seg_congr (m m2 : Nat → aout_buffer_t) (l : List Nat) :
    ∀ (p q : Option Nat), (∀ a ∈ l, (m2 a).p_next = (m a).p_next) →
      Seg m p l q → Seg m2 p l q := by
  induction l with
  | nil => intro p q _ h; exact h
  | cons a l ih =>
    intro p q hm h
    refine ⟨h.1, ?_⟩
    rw [hm a (List.mem_cons_self _ _)]
    exact ih _ _ (fun x hx => hm x (List.mem_cons_of_mem _ hx)) h.2

/-- A segment followed by a segment. -/
theorem Seg_append (m : Nat → aout_buffer_t) (l1 l2 : List Nat) :
    ∀ (p q r : Option Nat), Seg m p l1 r → Seg m r l2 q → Seg m p (l1 ++ l2) q := by
  induction l1 with
  | nil => intro p q r h1 h2; simp only [Seg] at h1; subst h1; simpa using h2
  | cons a l ih =>
    intro p q r h1 h2
    exact ⟨h1.1, ih _ _ _ h1.2 h2⟩

/-- A segment that ends with the buffer `z` arrives at `z` and leaves it by
its link. -/
theorem Seg_snoc (m : Nat → aout_buffer_t) (l : List Nat) (z : Nat) :
    ∀ (p q : Option Nat), Seg m p (l ++ [z]) q → Seg m p l (some z) ∧ (m z).p_next = q := by
  induction l with
  | nil =>
    intro p q h
    simp only [List.nil_append, Seg] at h
    exact ⟨h.1, h.2⟩
  | cons a l ih =>
    intro p q h
    obtain ⟨h1, h2⟩ := h
    obtain ⟨h3, h4⟩ := ih _ _ h2
    exact ⟨⟨h1, h3⟩, h4⟩

/-- The tail reference of a queue that ends with `z`. -/
theorem tailRef_snoc (l : List Nat) (z : Nat) : tailRef (l ++ [z]) = .buf_next z := by
  induction l with
  | nil => rfl
  | cons a l ih =>
    cases l with
    | nil => rfl
    | cons b l => simpa [tailRef] using ih

/-- The tail reference does not depend on the head when more buffers follow. -/
theorem tailRef_cons (a : Nat) (l : List Nat) (h : l ≠ []) : tailRef (a :: l) = tailRef l := by
  cases l with
  | nil => exact absurd rfl h
  | cons b l => rfl

/-- The tail reference tells the empty queue from the others. -/
theorem tailRef_eq_first (l : List Nat) : tailRef l = .fifo_first ↔ l = [] := by
  constructor
  · intro h
    rcases List.eq_nil_or_concat l with h0 | ⟨l2, z, rfl⟩
    · exact h0
    · rw [List.concat_eq_append, tailRef_snoc] at h
      cases h
  · rintro rfl; rfl

/-- The tail reference names the last buffer. -/
theorem tailRef_eq_next (l : List Nat) (z : Nat) :
    tailRef l = .buf_next z ↔ ∃ l2, l = l2 ++ [z] := by
  constructor
  · intro h
    rcases List.eq_nil_or_concat l with h0 | ⟨l2, y, rfl⟩
    · subst h0; cases h
    · rw [List.concat_eq_append, tailRef_snoc] at h
      cases h
      exact ⟨l2, by simp⟩
  · rintro ⟨l2, rfl⟩; exact tailRef_snoc l2 z

/-! ## The FIFO: the queue through init, push and pop -/

/-- After `aout_FifoInit` the state holds the empty queue. -/
theorem IsQueue_init (s : aout_state) (i_rate : Nat) : IsQueue (aout_FifoInit s i_rate) [] :=
  ⟨rfl, List.nodup_nil, rfl⟩

/-- A push of a buffer that is not in the queue appends it. -/
theorem IsQueue_push (w : Nat) (s : aout_state) (l : List Nat) (b : Nat)
    (h : IsQueue s l) (hb : b ∉ l) : IsQueue (aout_FifoPush w s b) (l ++ [b]) := by
  obtain ⟨hseg, hnd, hpp⟩ := h
  have hbnext : ((aout_FifoPush w s b).bufs b).p_next = none := by
    rw [aout_FifoPush_bufs_self]; split <;> rfl
  refine ⟨?_, ?_, ?_⟩
  · rcases List.eq_nil_or_concat l with h0 | ⟨l2, z, rfl⟩
    · subst h0
      have hfirst : (aout_FifoPush w s b).fifo.p_first = some b := by
        rw [aout_FifoPush_fifo]; simp [hpp, tailRef]
      exact ⟨hfirst, hbnext⟩
    · rw [List.concat_eq_append] at hseg hnd hpp hb ⊢
      rw [tailRef_snoc] at hpp
      obtain ⟨hs1, _⟩ := Seg_snoc _ _ _ _ _ hseg
      have hzb : z ≠ b := by
        intro e; apply hb; simp [e]
      have hz : z ∉ l2 := by
        intro hz
        have := List.nodup_append.mp hnd
        exact this.2.2 hz (List.mem_singleton_self z)
      have hfirst : (aout_FifoPush w s b).fifo.p_first = s.fifo.p_first := by
        rw [aout_FifoPush_fifo]; simp [hpp]
      have hznext : ((aout_FifoPush w s b).bufs z).p_next = some b := by
        rw [aout_FifoPush_bufs_other w s b z hzb]; simp [hpp]
      have hs2 : Seg (aout_FifoPush w s b).bufs s.fifo.p_first l2 (some z) := by
        refine Seg_congr _ _ _ _ _ ?_ hs1
        intro a ha
        have hab : a ≠ b := by
          intro e; apply hb; simp [← e, ha]
        have haz : a ≠ z := fun e => hz (e ▸ ha)
        rw [aout_FifoPush_bufs_other w s b a hab, hpp]
        have : ¬ (aout_buffer_pp.buf_next z = aout_buffer_pp.buf_next a) := by
          intro e; cases e; exact haz rfl
        rw [if_neg this]
      rw [hfirst, List.append_assoc]
      refine Seg_append _ _ _ _ _ _ hs2 ?_
      exact Seg_append _ [z] [b] _ _ (some b) ⟨rfl, hznext⟩ ⟨rfl, hbnext⟩
  · rw [List.nodup_append]
    refine ⟨hnd, List.nodup_singleton b, ?_⟩
    intro x hx hy
    simp only [List.mem_singleton] at hy
    subst hy
    exact hb hx
  · rw [aout_FifoPush_fifo, tailRef_snoc]

/-- A pop on the empty queue returns `NULL` and writes nothing. -/
theorem aout_FifoPop_nil (s : aout_state) (h : IsQueue s []) : aout_FifoPop s = (none, s) := by
  have h1 : s.fifo.p_first = none := h.1
  unfold aout_FifoPop
  rw [h1]

/-- A pop on a queue with head `a` returns `a`, leaves the rest as the queue,
and touches neither the buffers, nor the release log, nor the clock. -/
theorem aout_FifoPop_cons (s : aout_state) (a : Nat) (l : List Nat) (h : IsQueue s (a :: l)) :
    (aout_FifoPop s).1 = some a ∧ IsQueue (aout_FifoPop s).2 l ∧
    (aout_FifoPop s).2.bufs = s.bufs ∧ (aout_FifoPop s).2.freed = s.freed ∧
    (aout_FifoPop s).2.fifo.end_date = s.fifo.end_date := by
  obtain ⟨⟨h1, h2⟩, hnd, hpp⟩ := h
  unfold aout_FifoPop
  rw [h1]
  simp only
  cases l with
  | nil =>
    have h3 : (s.bufs a).p_next = none := h2
    simp only [h3, if_true, true_and, and_true]
    exact ⟨rfl, List.nodup_nil, rfl⟩
  | cons c l =>
    have h3 : (s.bufs a).p_next = some c := h2.1
    simp only [h3, reduceCtorEq, if_false, true_and, and_true]
    refine ⟨⟨rfl, ?_⟩, (List.nodup_cons.mp hnd).2, ?_⟩
    · exact h2.2
    · rw [hpp, tailRef_cons a (c :: l) (by simp)]

/-- In a state that holds a queue, the head pointer is `NULL` exactly when
the queue is empty. -/
theorem IsQueue_first_none (s : aout_state) (l : List Nat) (h : IsQueue s l) :
    (aout_FifoPop s).1 = none ↔ l = [] := by
  cases l with
  | nil => rw [aout_FifoPop_nil s h]; simp
  | cons a l => rw [(aout_FifoPop_cons s a l h).1]; simp

/-! ## The FIFO: the two loops -/

/-- On a chain that reaches `NULL` after the buffers `l`, the release loop
ends as soon as the fuel covers the length of `l`, and it has logged exactly
the buffers of `l`, in order, and written nothing else. -/
theorem freeLoop_eq (l : List Nat) :
    ∀ (fuel : Nat) (s : aout_state) (p : Option Nat), Seg s.bufs p l none →
      l.length ≤ fuel → freeLoop fuel s p = some { s with freed := s.freed ++ l } := by
  induction l with
  | nil =>
    intro fuel s p h _
    simp only [Seg] at h
    subst h
    cases fuel <;> simp [freeLoop]
  | cons a l ih =>
    intro fuel s p h hf
    obtain ⟨h1, h2⟩ := h
    subst h1
    cases fuel with
    | zero => simp at hf
    | succ k =>
      simp only [freeLoop]
      rw [ih k (aout_BufferFree s a) _ h2 (by simpa using hf)]
      simp [aout_BufferFree]

/-- On a chain that reaches `NULL` after the distinct buffers `l`, the loop
of `aout_FifoMoveDates` ends as soon as the fuel covers the length of `l`,
and it has shifted the two dates of exactly the buffers of `l`. -/
theorem moveLoop_eq (d : Int) (l : List Nat) :
    ∀ (fuel : Nat) (s : aout_state) (p : Option Nat), Seg s.bufs p l none → l.Nodup →
      l.length ≤ fuel →
      moveLoop d fuel s p =
        some { s with bufs := fun a => if a ∈ l then shiftBuf d (s.bufs a) else s.bufs a } := by
  induction l with
  | nil =>
    intro fuel s p h _ _
    simp only [Seg] at h
    subst h
    cases fuel <;> simp [moveLoop]
  | cons a l ih =>
    intro fuel s p h hnd hf
    obtain ⟨h1, h2⟩ := h
    subst h1
    obtain ⟨hal, hnd2⟩ := List.nodup_cons.mp hnd
    cases fuel with
    | zero => simp at hf
    | succ k =>
      simp only [moveLoop]
      have hnext : ∀ x, ((setBuf (setBuf s a { s.bufs a with
            start_date := (s.bufs a).start_date + d }) a
          { (setBuf s a { s.bufs a with start_date := (s.bufs a).start_date + d }).bufs a with
            end_date := ((setBuf s a { s.bufs a with
              start_date := (s.bufs a).start_date + d }).bufs a).end_date + d }).bufs x).p_next
          = (s.bufs x).p_next := by
        intro x
        by_cases hx : x = a
        · subst hx; simp [setBuf]
        · simp [setBuf, Function.update_noteq hx]
      rw [hnext a]
      rw [ih k _ _ (Seg_congr _ _ _ _ _ (fun x _ => hnext x) h2) hnd2 (by simpa using hf)]
      congr 1
      apply aout_state.ext
      · funext x
        by_cases hx : x = a
        · subst hx
          simp [setBuf, hal, shiftBuf]
        · simp [setBuf, Function.update_noteq hx, hx]
      · rfl
      · rfl

/-- The state after `aout_FifoSet` on a state that holds a queue. -/
theorem aout_FifoSet_eq (fuel : Nat) (s : aout_state) (l : List Nat) (t : Int)
    (h : IsQueue s l) (hf : l.length ≤ fuel) :
    aout_FifoSet fuel s t =
      some { bufs := s.bufs, freed := s.freed ++ l,
             fifo := { p_first := none, pp_last := .fifo_first,
                       end_date := aout_DateSet s.fifo.end_date t } } := by
  have e := freeLoop_eq l fuel
    { s with fifo := { s.fifo with end_date := aout_DateSet s.fifo.end_date t } }
    s.fifo.p_first h.1 hf
  unfold aout_FifoSet
  simp only [e]

/-- The state after `aout_FifoMoveDates` on a state that holds a queue. -/
theorem aout_FifoMoveDates_eq (fuel : Nat) (s : aout_state) (l : List Nat) (d : Int)
    (h : IsQueue s l) (hf : l.length ≤ fuel) :
    aout_FifoMoveDates fuel s d =
      some { bufs := fun a => if a ∈ l then shiftBuf d (s.bufs a) else s.bufs a,
             freed := s.freed,
             fifo := { s.fifo with end_date := aout_DateMove s.fifo.end_date d } } := by
  have e := moveLoop_eq d l fuel
    { s with fifo := { s.fifo with end_date := aout_DateMove s.fifo.end_date d } }
    s.fifo.p_first h.1 h.2.1 hf
  unfold aout_FifoMoveDates
  simp only [e]

/-- The state after `aout_FifoDestroy` on a state that holds a queue: the
buffers are logged as released, the FIFO record is as it was. -/
theorem aout_FifoDestroy_eq (fuel : Nat) (s : aout_state) (l : List Nat)
    (h : IsQueue s l) (hf : l.length ≤ fuel) :
    aout_FifoDestroy fuel s = some { s with freed := s.freed ++ l } := by
  unfold aout_FifoDestroy
  rw [freeLoop_eq l fuel _ _ h.1 hf]

/-! ## The FIFO: sequences of pushes and pops -/

/-- Running a sequence that respects the ownership rule from a state that
holds the queue `q`: the final state holds a queue `q2`, and the buffers that
were in the queue or were pushed are, in order, those the pops returned
followed by those still queued. -/
theorem runOps_spec (w : Nat) (ops : List FifoOp) :
    ∀ (s : aout_state) (q : List Nat), IsQueue s q → ownershipOk q ops = true →
      ∃ q2, IsQueue (runOps w ops s).1 q2 ∧
        q ++ pushedBy ops = (runOps w ops s).2.reduceOption ++ q2 := by
  induction ops with
  | nil =>
    intro s q h _
    exact ⟨q, h, by simp [runOps, pushedBy]⟩
  | cons op ops ih =>
    intro s q h hown
    cases op with
    | push b =>
      simp only [ownershipOk, Bool.and_eq_true, decide_eq_true_eq] at hown
      obtain ⟨q2, hq, he⟩ := ih (aout_FifoPush w s b) (q ++ [b])
        (IsQueue_push w s q b h hown.1) hown.2
      refine ⟨q2, hq, ?_⟩
      simp only [runOps, pushedBy]
      rw [← he]
      simp
    | pop =>
      simp only [ownershipOk] at hown
      cases q with
      | nil =>
        have hp := aout_FifoPop_nil s h
        obtain ⟨q2, hq, he⟩ := ih s [] h hown
        refine ⟨q2, ?_, ?_⟩
        · simpa [runOps, hp] using hq
        · simpa [runOps, hp, pushedBy] using he
      | cons a q1 =>
        obtain ⟨hp1, hp2, _⟩ := aout_FifoPop_cons s a q1 h
        obtain ⟨q2, hq, he⟩ := ih (aout_FifoPop s).2 q1 hp2 hown
        refine ⟨q2, ?_, ?_⟩
        · simpa [runOps] using hq
        · simp only [runOps, pushedBy, hp1, List.reduceOption_cons_of_some, List.cons_append]
          rw [← he]

/-! ## The clock: exactness, additivity, remainder invariant -/

/-- C1, as stated, fails: with a 32-bit remainder field and the divider
`4294967295`, two increments by `4294` samples leave the date at `0` because
the sum of the two remainders wraps around `2 ^ 32` and the carry is lost,
while `round(8588 * 1000000 / 4294967295)` is `2`. -/
theorem clock_exactness_counterexample :
    (incrementAll 32 (aout_DateInit ⟨0, 0, 0⟩ 4294967295) [4294, 4294]).date = 0 ∧
    roundDiv (([4294, 4294] : List Nat).sum * 1000000) 4294967295 = 2 ∧
    ¬ (|(incrementAll 32 (aout_DateInit ⟨0, 0, 0⟩ 4294967295) [4294, 4294]).date
          - (roundDiv (([4294, 4294] : List Nat).sum * 1000000) 4294967295 : Int)| ≤ 1) := by
  decide

/-- C1, amended: for every divider `D > 0` such that twice `D` fits the
`w`-bit remainder field (`D ≤ 2 ^ 31` for 32 bits), and every finite sequence
of 32-bit sample counts, the date reached from `init(D)` by the increments is
exactly `floor(sum * 1000000 / D)`, the remainder is `sum * 1000000 mod D`,
and the date differs from `round(sum * 1000000 / D)` by at most one
microsecond, whatever the number of calls. -/
theorem clock_exactness (w D : Nat) (p0 : audio_date_t) (ns : List Nat)
    (hD : 0 < D) (hD32 : D < 2 ^ 32) (hw : 2 * D ≤ 2 ^ w)
    (hns : ∀ n ∈ ns, n < 2 ^ 32) :
    (incrementAll w (aout_DateInit p0 D) ns).date = ((ns.sum * 1000000 / D : Nat) : Int) ∧
    (incrementAll w (aout_DateInit p0 D) ns).i_remainder = ns.sum * 1000000 % D ∧
    |(incrementAll w (aout_DateInit p0 D) ns).date
        - (roundDiv (ns.sum * 1000000) D : Int)| ≤ 1 := by
  have hinit : aout_DateInit p0 D = ⟨0, D, 0⟩ := by
    simp only [aout_DateInit, Nat.mod_eq_of_lt hD32]
  rw [hinit, incrementAll_eq w ns ⟨0, D, 0⟩ hD hD hw hns]
  simp only [zero_add, true_and]
  obtain ⟨h1, h2⟩ := roundDiv_bounds (ns.sum * 1000000) D hD
  rw [abs_le]
  constructor <;> omega

/-- The amended C1 at the rate 48000 with a 32-bit remainder, three calls. -/
theorem clock_exactness_witness :
    (incrementAll 32 (aout_DateInit ⟨7, 3, 2⟩ 48000) [1024, 1024, 1]).date
      = (((([1024, 1024, 1] : List Nat).sum * 1000000 / 48000 : Nat)) : Int) ∧
    (incrementAll 32 (aout_DateInit ⟨7, 3, 2⟩ 48000) [1024, 1024, 1]).i_remainder
      = ([1024, 1024, 1] : List Nat).sum * 1000000 % 48000 ∧
    |(incrementAll 32 (aout_DateInit ⟨7, 3, 2⟩ 48000) [1024, 1024, 1]).date
        - (roundDiv (([1024, 1024, 1] : List Nat).sum * 1000000) 48000 : Int)| ≤ 1 :=
  clock_exactness 32 48000 ⟨7, 3, 2⟩ [1024, 1024, 1] (by decide) (by decide) (by decide)
    (by decide)

/-- C2, as stated, fails: with a 32-bit remainder field, divider `4294967295`
and remainder `0`, `increment(4294)` twice leaves the date at `0`, a single
`increment(8588)` moves it to `1`. -/
theorem clock_additivity_counterexample :
    (aout_DateIncrement 32 (aout_DateIncrement 32 ⟨0, 4294967295, 0⟩ 4294).1 4294).1.date = 0 ∧
    (aout_DateIncrement 32 ⟨0, 4294967295, 0⟩ (4294 + 4294)).1.date = 1 := by
  decide

/-- C2, amended: for every clock state with divider `D > 0`, remainder `< D`
and twice `D` fitting the `w`-bit remainder field (`D ≤ 2 ^ 31` for 32 bits),
and all sample counts `a`, `b` whose sum is still a 32-bit count,
`increment(a)` followed by `increment(b)` leaves the same record (date,
remainder, divider) and returns the same date as a single `increment(a + b)`. -/
theorem clock_additivity (w : Nat) (p : audio_date_t) (a b : Nat)
    (hD : 0 < p.i_divider) (hr : p.i_remainder < p.i_divider)
    (hw : 2 * p.i_divider ≤ 2 ^ w) (hab : a + b < 2 ^ 32) :
    aout_DateIncrement w (aout_DateIncrement w p a).1 b = aout_DateIncrement w p (a + b) := by
  have ha : a < 2 ^ 32 := by omega
  have hb : b < 2 ^ 32 := by omega
  have e2 := incrementAll_eq w [a, b] p hD hr hw (by
    intro n hn
    simp only [List.mem_cons, List.mem_singleton, List.not_mem_nil, or_false] at hn
    omega)
  have e1 := incrementAll_eq w [a + b] p hD hr hw (by
    intro n hn
    simp only [List.mem_singleton] at hn
    omega)
  simp only [incrementAll, List.sum_cons, List.sum_nil, add_zero] at e1 e2
  apply Prod.ext
  · rw [e1, e2]
  · rw [aout_DateIncrement_snd, aout_DateIncrement_snd, e1, e2]

/-- The amended C2 at the rate 44100 from a state with a pending remainder. -/
theorem clock_additivity_witness :
    aout_DateIncrement 32 (aout_DateIncrement 32 ⟨5, 44100, 44099⟩ 1152).1 1000
      = aout_DateIncrement 32 ⟨5, 44100, 44099⟩ (1152 + 1000) :=
  clock_additivity 32 ⟨5, 44100, 44099⟩ 1152 1000 (by decide) (by decide) (by decide)
    (by decide)

/-- C3: `remainder < divider` is established by `init(rate)` for a 32-bit rate
`> 0` from any record `p0` whatever, also one in which it does not hold: the
record after `init` is date 0, divider `rate`, remainder 0. It is preserved
by `set`, `move` and `increment` on every record `p` in which it holds; for
the increment this is so with the remainder arithmetic reduced to the `w`
bits of the remainder field, whatever `w`, as long as the divider itself
fits that field, and for every sample count (the count is reduced to 32 bits
on entry). -/
theorem clock_remainder_invariant (w : Nat) (p0 p : audio_date_t) (rate n : Nat) (t d : Int)
    (hrate : 0 < rate) (hrate32 : rate < 2 ^ 32)
    (hr : p.i_remainder < p.i_divider) (hw : p.i_divider < 2 ^ w) :
    aout_DateInit p0 rate = ⟨0, rate, 0⟩ ∧
    (aout_DateInit p0 rate).i_remainder < (aout_DateInit p0 rate).i_divider ∧
    (aout_DateSet p t).i_remainder < (aout_DateSet p t).i_divider ∧
    (aout_DateMove p d).i_remainder < (aout_DateMove p d).i_divider ∧
    (aout_DateIncrement w p n).1.i_remainder < (aout_DateIncrement w p n).1.i_divider := by
  refine ⟨?_, ?_, ?_, ?_, ?_⟩
  · simp only [aout_DateInit, Nat.mod_eq_of_lt hrate32]
  · simp only [aout_DateInit, Nat.mod_eq_of_lt hrate32]
    exact hrate
  · simp only [aout_DateSet]; omega
  · simpa [aout_DateMove] using hr
  · rw [aout_DateIncrement_divider]
    exact aout_DateIncrement_remainder_lt w p n hr hw

/-- C3 with `init(48000)` on a record in which the invariant does not hold
(remainder 5, divider 0), and the three other operations at the largest
32-bit divider, where the sum of two remainders wraps. -/
theorem clock_remainder_invariant_witness :
    aout_DateInit ⟨7, 0, 5⟩ 48000 = ⟨0, 48000, 0⟩ ∧
    (aout_DateInit ⟨7, 0, 5⟩ 48000).i_remainder < (aout_DateInit ⟨7, 0, 5⟩ 48000).i_divider ∧
    (aout_DateSet ⟨9, 4294967295, 4294000000⟩ 12).i_remainder
      < (aout_DateSet ⟨9, 4294967295, 4294000000⟩ 12).i_divider ∧
    (aout_DateMove ⟨9, 4294967295, 4294000000⟩ (-3)).i_remainder
      < (aout_DateMove ⟨9, 4294967295, 4294000000⟩ (-3)).i_divider ∧
    (aout_DateIncrement 32 ⟨9, 4294967295, 4294000000⟩ 4294).1.i_remainder
      < (aout_DateIncrement 32 ⟨9, 4294967295, 4294000000⟩ 4294).1.i_divider :=
  clock_remainder_invariant 32 ⟨7, 0, 5⟩ ⟨9, 4294967295, 4294000000⟩ 48000 4294 12 (-3)
    (by decide) (by decide) (by decide) (by decide)

/-! ## The FIFO: push -/

/-- C4: in a state that holds a queue `l`, the push of a buffer `b` that is
not queued makes the queue `l ++ [b]`. If the clock date `d` is nonzero, the
start of `b` becomes `d`, its end becomes the value returned by
`aout_DateIncrement` on the clock of the queue for the sample count of `b`,
the clock is the incremented clock and its date is that end. If the clock
date is zero, start and end of `b` are as the producer left them and the
clock is set to the end of `b` with remainder 0. Sample and byte counts of
`b` are kept. Every other buffer keeps its counts and dates, and keeps its
whole record unless it is the old tail, whose link is the one through which
`b` is appended. Nothing is released. -/
theorem fifo_push_continuity (w : Nat) (s : aout_state) (l : List Nat) (b : Nat)
    (h : IsQueue s l) (hb : b ∉ l) :
    IsQueue (aout_FifoPush w s b) (l ++ [b]) ∧
    (aout_DateGet s.fifo.end_date ≠ 0 →
      ((aout_FifoPush w s b).bufs b).start_date = aout_DateGet s.fifo.end_date ∧
      ((aout_FifoPush w s b).bufs b).end_date
        = (aout_DateIncrement w s.fifo.end_date (s.bufs b).i_nb_samples).2 ∧
      (aout_FifoPush w s b).fifo.end_date
        = (aout_DateIncrement w s.fifo.end_date (s.bufs b).i_nb_samples).1 ∧
      aout_DateGet (aout_FifoPush w s b).fifo.end_date
        = ((aout_FifoPush w s b).bufs b).end_date) ∧
    (aout_DateGet s.fifo.end_date = 0 →
      ((aout_FifoPush w s b).bufs b).start_date = (s.bufs b).start_date ∧
      ((aout_FifoPush w s b).bufs b).end_date = (s.bufs b).end_date ∧
      (aout_FifoPush w s b).fifo.end_date
        = { s.fifo.end_date with date := (s.bufs b).end_date, i_remainder := 0 }) ∧
    ((aout_FifoPush w s b).bufs b).i_nb_samples = (s.bufs b).i_nb_samples ∧
    ((aout_FifoPush w s b).bufs b).i_nb_bytes = (s.bufs b).i_nb_bytes ∧
    (∀ a, a ≠ b →
      ((aout_FifoPush w s b).bufs a).i_nb_samples = (s.bufs a).i_nb_samples ∧
      ((aout_FifoPush w s b).bufs a).i_nb_bytes = (s.bufs a).i_nb_bytes ∧
      ((aout_FifoPush w s b).bufs a).start_date = (s.bufs a).start_date ∧
      ((aout_FifoPush w s b).bufs a).end_date = (s.bufs a).end_date) ∧
    (∀ a, a ≠ b → s.fifo.pp_last ≠ .buf_next a → (aout_FifoPush w s b).bufs a = s.bufs a) ∧
    (aout_FifoPush w s b).freed = s.freed := by
  refine ⟨IsQueue_push w s l b h hb, ?_, ?_, ?_, ?_, ?_, ?_, aout_FifoPush_freed w s b⟩
  · intro hd
    have hd2 : s.fifo.end_date.date ≠ 0 := hd
    rw [aout_FifoPush_bufs_self, aout_FifoPush_fifo, if_pos hd2, if_pos hd2]
    exact ⟨rfl, rfl, rfl, (aout_DateIncrement_snd _ _ _).symm⟩
  · intro hd
    have hd2 : ¬ s.fifo.end_date.date ≠ 0 := fun hne => hne hd
    rw [aout_FifoPush_bufs_self, aout_FifoPush_fifo, if_neg hd2, if_neg hd2]
    exact ⟨rfl, rfl, rfl⟩
  · rw [aout_FifoPush_bufs_self]; split <;> rfl
  · rw [aout_FifoPush_bufs_self]; split <;> rfl
  · intro a ha
    rw [aout_FifoPush_bufs_other w s b a ha]
    split <;> exact ⟨rfl, rfl, rfl, rfl⟩
  · intro a ha hpp
    rw [aout_FifoPush_bufs_other w s b a ha, if_neg hpp]

/-- C4 on the memory `demo`: after `init(48000)` and the push of buffer 0
(clock date zero, so the clock takes the producer's end 900), the push of
buffer 1 dates it from 900 to 900 + 21354 whatever the producer wrote, and
buffer 0 keeps its dates. -/
theorem fifo_push_continuity_witness :
    IsQueue (aout_FifoPush 32 (aout_FifoPush 32 (aout_FifoInit demo 48000) 0) 1) ([0] ++ [1]) ∧
    ((aout_FifoPush 32 (aout_FifoPush 32 (aout_FifoInit demo 48000) 0) 1).bufs 1).start_date
      = 900 ∧
    ((aout_FifoPush 32 (aout_FifoPush 32 (aout_FifoInit demo 48000) 0) 1).bufs 1).end_date
      = 22254 ∧
    ((aout_FifoPush 32 (aout_FifoPush 32 (aout_FifoInit demo 48000) 0) 1).bufs 0).start_date
      = 500 := by
  have h := fifo_push_continuity 32 (aout_FifoPush 32 (aout_FifoInit demo 48000) 0) [0] 1
    (IsQueue_push 32 _ [] 0 (IsQueue_init demo 48000) (by simp)) (by decide)
  refine ⟨h.1, ?_, ?_, ?_⟩
  · exact (h.2.1 (by decide)).1.trans (by decide)
  · exact (h.2.1 (by decide)).2.1.trans (by decide)
  · exact (h.2.2.2.2.2.1 0 (by decide)).2.2.1.trans (by decide)

/-- The state after `init(R)` and `reset(T0)`: an empty queue whose clock is at
`T0` with divider `R` and remainder 0; buffers and release log are those of
the start. Any amount of fuel will do, the queue being empty. -/
theorem reset_after_init (fuel R : Nat) (s0 : aout_state) (T0 : Int) (hR32 : R < 2 ^ 32) :
    ∃ s1, aout_FifoSet fuel (aout_FifoInit s0 R) T0 = some s1 ∧ IsQueue s1 [] ∧
      s1.fifo.end_date = ⟨T0, R, 0⟩ ∧ s1.bufs = s0.bufs ∧ s1.freed = s0.freed := by
  refine ⟨_, aout_FifoSet_eq fuel (aout_FifoInit s0 R) [] T0 (IsQueue_init s0 R)
    (Nat.zero_le _), ⟨rfl, List.nodup_nil, rfl⟩, ?_, rfl, ?_⟩
  · simp only [aout_FifoInit, aout_DateInit, aout_DateSet, Nat.mod_mod, Nat.mod_eq_of_lt hR32]
  · simp [aout_FifoInit]

/-- One push on a queue whose clock date is nonzero, when twice the divider
fits the remainder field: the buffer starts at the clock date and the clock
advances by the carry-propagating division. -/
theorem push_dated (w : Nat) (s : aout_state) (l : List Nat) (b : Nat) (d : Int) (D r : Nat)
    (h : IsQueue s l) (hb : b ∉ l) (hc : s.fifo.end_date = ⟨d, D, r⟩) (hd : d ≠ 0)
    (hD : 0 < D) (hr : r < D) (hw : 2 * D ≤ 2 ^ w) (hn : (s.bufs b).i_nb_samples < 2 ^ 32) :
    IsQueue (aout_FifoPush w s b) (l ++ [b]) ∧
    ((aout_FifoPush w s b).bufs b).start_date = d ∧
    ((aout_FifoPush w s b).bufs b).end_date
      = d + (((r + (s.bufs b).i_nb_samples * 1000000) / D : Nat) : Int) ∧
    (aout_FifoPush w s b).fifo.end_date
      = ⟨d + (((r + (s.bufs b).i_nb_samples * 1000000) / D : Nat) : Int), D,
          (r + (s.bufs b).i_nb_samples * 1000000) % D⟩ ∧
    (∀ a, a ≠ b →
      ((aout_FifoPush w s b).bufs a).i_nb_samples = (s.bufs a).i_nb_samples ∧
      ((aout_FifoPush w s b).bufs a).start_date = (s.bufs a).start_date ∧
      ((aout_FifoPush w s b).bufs a).end_date = (s.bufs a).end_date) := by
  have hd2 : s.fifo.end_date.date ≠ 0 := by rw [hc]; exact hd
  have hinc := aout_DateIncrement_eq w s.fifo.end_date (s.bufs b).i_nb_samples
    (by rw [hc]; exact hD) (by rw [hc]; exact hr) (by rw [hc]; exact hw)
  rw [Nat.mod_eq_of_lt hn, hc] at hinc
  simp only at hinc
  refine ⟨IsQueue_push w s l b h hb, ?_, ?_, ?_, ?_⟩
  · rw [aout_FifoPush_bufs_self, if_pos hd2, hc]
  · rw [aout_FifoPush_bufs_self, if_pos hd2]
    simp only
    rw [hc, hinc]
  · rw [aout_FifoPush_fifo, if_pos hd2]
    simp only
    rw [hc, hinc]
  · intro a ha
    rw [aout_FifoPush_bufs_other w s b a ha]
    split <;> exact ⟨rfl, rfl, rfl⟩

/-- Two successive carry-propagating divisions amount to one. -/
theorem div_carry (D r a b : Nat) (hD : 0 < D) :
    (r + a) / D + ((r + a) % D + b) / D = (r + a + b) / D ∧
    ((r + a) % D + b) % D = (r + a + b) % D := by
  have e : (r + a) % D + b + D * ((r + a) / D) = r + a + b := by
    have := Nat.mod_add_div (r + a) D
    omega
  constructor
  · rw [← e, Nat.add_mul_div_left _ _ hD, Nat.add_comm]
  · rw [← e, Nat.add_mul_mod_self_left]

/-- C6: for every 32-bit rate `R > 0` (the remainder field being at least as
wide), every nonzero `T0` and every buffer with a 32-bit sample count `n`,
after `init(R)` and `reset(T0)` (which ends whatever the fuel) the push of the
buffer gives it start `T0` and end `T0 + floor(n * 1000000 / R)`, and
`nextStart` then returns that end. -/
theorem first_push_after_reset (w fuel R : Nat) (s0 : aout_state) (a : Nat) (T0 : Int)
    (hR : 0 < R) (hR32 : R < 2 ^ 32) (hw : 32 ≤ w) (hT : T0 ≠ 0)
    (hn : (s0.bufs a).i_nb_samples < 2 ^ 32) :
    ∃ s1, aout_FifoSet fuel (aout_FifoInit s0 R) T0 = some s1 ∧
      ((aout_FifoPush w s1 a).bufs a).start_date = T0 ∧
      ((aout_FifoPush w s1 a).bufs a).end_date
        = T0 + (((s0.bufs a).i_nb_samples * 1000000 / R : Nat) : Int) ∧
      aout_FifoNextStart (aout_FifoPush w s1 a)
        = T0 + (((s0.bufs a).i_nb_samples * 1000000 / R : Nat) : Int) := by
  obtain ⟨s1, hs1, hq, hc, hb, _⟩ := reset_after_init fuel R s0 T0 hR32
  refine ⟨s1, hs1, ?_⟩
  have hd2 : s1.fifo.end_date.date ≠ 0 := by rw [hc]; exact hT
  have hpow : 2 ^ 32 ≤ 2 ^ w := Nat.pow_le_pow_right (by decide) hw
  have hm : (s0.bufs a).i_nb_samples * 1000000 % R < R := Nat.mod_lt _ hR
  have hfit : 0 + (s0.bufs a).i_nb_samples * 1000000 % R < 2 ^ w := by omega
  have hinc : aout_DateIncrement w ⟨T0, R, 0⟩ (s0.bufs a).i_nb_samples
      = (⟨T0 + (((s0.bufs a).i_nb_samples * 1000000 / R : Nat) : Int), R,
          (s0.bufs a).i_nb_samples * 1000000 % R⟩,
         T0 + (((s0.bufs a).i_nb_samples * 1000000 / R : Nat) : Int)) := by
    unfold aout_DateIncrement
    simp only [Nat.mod_eq_of_lt hn, Nat.mod_eq_of_lt hfit]
    rw [if_neg (by omega)]
    simp
  refine ⟨?_, ?_, ?_⟩
  · rw [aout_FifoPush_bufs_self, if_pos hd2, hc]
  · rw [aout_FifoPush_bufs_self, if_pos hd2]
    simp only
    rw [hc, hb, hinc]
  · unfold aout_FifoNextStart aout_DateGet
    rw [aout_FifoPush_fifo, if_pos hd2]
    simp only
    rw [hc, hb, hinc]

/-- C6 at the values of the spec: rate 48000, `T0 = 1000000`, a buffer of 1024
samples (buffer 0 of `demo`, whose producer dates are 500 and 900): start
1000000, end 1021333, next start 1021333. -/
theorem first_push_after_reset_witness :
    ∃ s1, aout_FifoSet 0 (aout_FifoInit demo 48000) 1000000 = some s1 ∧
      ((aout_FifoPush 32 s1 0).bufs 0).start_date = 1000000 ∧
      ((aout_FifoPush 32 s1 0).bufs 0).end_date = 1021333 ∧
      aout_FifoNextStart (aout_FifoPush 32 s1 0) = 1021333 :=
  first_push_after_reset 32 0 48000 demo 0 1000000 (by decide) (by decide) (by decide)
    (by decide) (by decide)

/-- C5, as stated, fails: at the rate 44100, after `reset(1000000)` on the
empty queue, pushing buffers of 1024, 1025 and 1026 samples (buffers 0, 1, 2
of `demo`) gives the starts 1000000, 1023219, 1046462, where the claim has
1000000, 1023220 and 1046463 with `dur(s) = round(s * 1000000 / 44100)`; the
third start is not `T0 + dur(s1) + dur(s2)` with the durations rounded down
either (1046461). -/
theorem fifo_continuity_counterexample :
    (aout_FifoSet 0 (aout_FifoInit demo 44100) 1000000).map
        (fun s1 => [0, 1, 2].map (fun a => ((pushAll 32 s1 [0, 1, 2]).bufs a).start_date))
      = some [1000000, 1023219, 1046462] ∧
    ([1000000, 1000000 + (roundDiv (1024 * 1000000) 44100 : Int),
      1000000 + (roundDiv (1024 * 1000000) 44100 : Int)
        + (roundDiv (1025 * 1000000) 44100 : Int)] : List Int)
      = [1000000, 1023220, 1046463] ∧
    (1000000 + ((1024 * 1000000 / 44100 : Nat) : Int) + ((1025 * 1000000 / 44100 : Nat) : Int)
      = 1046461) := by
  decide

/-- C5, amended: for every rate `R > 0` with twice `R` fitting the remainder
field (`R ≤ 2 ^ 31` for 32 bits), every nonzero `T0`, and three distinct
buffers with 32-bit sample counts `n1`, `n2`, `n3` and whatever dates the
producer attached, after `init(R)` and `reset(T0)` the three pushes give the
starts `T0`, `T0 + floor(n1 * 1000000 / R)` and
`T0 + floor((n1 + n2) * 1000000 / R)`, provided these are nonzero (as they
are for `T0 > 0`): the clock carries the remainder from one buffer to the
next, so the elapsed time is rounded down once, not once per buffer. -/
theorem fifo_continuity (w fuel R : Nat) (s0 : aout_state) (a1 a2 a3 : Nat) (T0 : Int)
    (hR : 0 < R) (hR32 : R < 2 ^ 32) (hw : 2 * R ≤ 2 ^ w)
    (h12 : a1 ≠ a2) (h13 : a1 ≠ a3) (h23 : a2 ≠ a3)
    (hn1 : (s0.bufs a1).i_nb_samples < 2 ^ 32) (hn2 : (s0.bufs a2).i_nb_samples < 2 ^ 32)
    (hn3 : (s0.bufs a3).i_nb_samples < 2 ^ 32)
    (hT : T0 ≠ 0)
    (hT1 : T0 + (((s0.bufs a1).i_nb_samples * 1000000 / R : Nat) : Int) ≠ 0)
    (hT2 : T0 + ((((s0.bufs a1).i_nb_samples + (s0.bufs a2).i_nb_samples) * 1000000 / R : Nat)
      : Int) ≠ 0) :
    (aout_FifoSet fuel (aout_FifoInit s0 R) T0).map
        (fun s1 => [a1, a2, a3].map (fun a => ((pushAll w s1 [a1, a2, a3]).bufs a).start_date))
      = some [T0, T0 + (((s0.bufs a1).i_nb_samples * 1000000 / R : Nat) : Int),
          T0 + ((((s0.bufs a1).i_nb_samples + (s0.bufs a2).i_nb_samples) * 1000000 / R : Nat)
            : Int)] := by
  obtain ⟨s1, hs1, hq, hc, hb, _⟩ := reset_after_init fuel R s0 T0 hR32
  rw [hs1]
  simp only [Option.map_some', pushAll, List.map_cons, List.map_nil]
  have e1 : (s1.bufs a1).i_nb_samples = (s0.bufs a1).i_nb_samples := by rw [hb]
  have e2 : (s1.bufs a2).i_nb_samples = (s0.bufs a2).i_nb_samples := by rw [hb]
  obtain ⟨q2, st1, _, c2, o2⟩ := push_dated w s1 [] a1 T0 R 0 hq (by simp) hc hT hR hR hw
    (by rw [e1]; exact hn1)
  rw [e1, Nat.zero_add] at c2
  have m2 : ((aout_FifoPush w s1 a1).bufs a2).i_nb_samples = (s0.bufs a2).i_nb_samples := by
    rw [(o2 a2 (Ne.symm h12)).1, e2]
  obtain ⟨q3, st2, _, c3, o3⟩ := push_dated w (aout_FifoPush w s1 a1) ([] ++ [a1]) a2 _ R _
    q2 (by simpa using Ne.symm h12) c2 hT1 hR (Nat.mod_lt _ hR) hw (by rw [m2]; exact hn2)
  rw [m2] at c3
  have hdc := div_carry R 0 ((s0.bufs a1).i_nb_samples * 1000000)
    ((s0.bufs a2).i_nb_samples * 1000000) hR
  simp only [Nat.zero_add, ← Nat.add_mul] at hdc
  have hdate : T0 + (((s0.bufs a1).i_nb_samples * 1000000 / R : Nat) : Int)
      + ((((s0.bufs a1).i_nb_samples * 1000000 % R + (s0.bufs a2).i_nb_samples * 1000000) / R
          : Nat) : Int)
      = T0 + ((((s0.bufs a1).i_nb_samples + (s0.bufs a2).i_nb_samples) * 1000000 / R : Nat)
          : Int) := by
    rw [← hdc.1]; push_cast; ring
  rw [hdate] at c3
  have m3 : ((aout_FifoPush w (aout_FifoPush w s1 a1) a2).bufs a3).i_nb_samples
      = (s0.bufs a3).i_nb_samples := by
    rw [(o3 a3 (Ne.symm h23)).1, (o2 a3 (Ne.symm h13)).1, hb]
  obtain ⟨_, st3, _, _, o4⟩ := push_dated w (aout_FifoPush w (aout_FifoPush w s1 a1) a2)
    ([] ++ [a1] ++ [a2]) a3 _ R _ q3
    (by simp only [List.nil_append, List.singleton_append, List.mem_cons, List.mem_singleton,
          List.not_mem_nil, or_false, not_or]
        exact ⟨Ne.symm h13, Ne.symm h23⟩)
    c3 hT2 hR (Nat.mod_lt _ hR) hw (by rw [m3]; exact hn3)
  rw [(o4 a1 h13).2.1, (o3 a1 h12).2.1, st1, (o4 a2 h23).2.1, st2, st3]

/-- The amended C5 at the rate 44100 with `T0 = 1000000` on buffers 0, 1, 2 of
`demo` (1024, 1025 and 1026 samples). -/
theorem fifo_continuity_witness :
    (aout_FifoSet 0 (aout_FifoInit demo 44100) 1000000).map
        (fun s1 => [0, 1, 2].map (fun a => ((pushAll 32 s1 [0, 1, 2]).bufs a).start_date))
      = some [1000000, 1000000 + (((demo.bufs 0).i_nb_samples * 1000000 / 44100 : Nat) : Int),
          1000000 + ((((demo.bufs 0).i_nb_samples + (demo.bufs 1).i_nb_samples) * 1000000
            / 44100 : Nat) : Int)] :=
  fifo_continuity 32 0 44100 demo 0 1 2 1000000 (by decide) (by decide) (by decide)
    (by decide) (by decide) (by decide) (by decide) (by decide) (by decide) (by decide)
    (by decide) (by decide)

/-! ## The FIFO: order, shift, reset, destroy -/

/-- C7: run any sequence of pushes and pops on a queue just initialised, the
sequence respecting the ownership rule (no buffer is pushed while it is
queued). Then the buffers returned by the pops, in order, are a prefix of
the buffers pushed, in order: the k-th buffer returned is the k-th pushed.
A further pop returns `NULL` exactly when as many buffers were returned as
were pushed; then that pop leaves the state as it is, and a push of any
buffer `b` followed by a pop returns `b`. -/
theorem fifo_order (w : Nat) (s0 : aout_state) (i_rate : Nat) (ops : List FifoOp) (b : Nat)
    (hown : ownershipOk [] ops = true) :
    (runOps w ops (aout_FifoInit s0 i_rate)).2.reduceOption <+: pushedBy ops ∧
    ((aout_FifoPop (runOps w ops (aout_FifoInit s0 i_rate)).1).1 = none ↔
      (runOps w ops (aout_FifoInit s0 i_rate)).2.reduceOption.length
        = (pushedBy ops).length) ∧
    ((aout_FifoPop (runOps w ops (aout_FifoInit s0 i_rate)).1).1 = none →
      (aout_FifoPop (runOps w ops (aout_FifoInit s0 i_rate)).1).2
        = (runOps w ops (aout_FifoInit s0 i_rate)).1 ∧
      (aout_FifoPop (aout_FifoPush w (runOps w ops (aout_FifoInit s0 i_rate)).1 b)).1
        = some b) := by
  obtain ⟨q2, hq, he⟩ := runOps_spec w ops (aout_FifoInit s0 i_rate) []
    (IsQueue_init s0 i_rate) hown
  rw [List.nil_append] at he
  have hnone := IsQueue_first_none _ q2 hq
  refine ⟨⟨q2, he.symm⟩, ?_, ?_⟩
  · rw [hnone, he, List.length_append]
    constructor
    · rintro rfl; simp
    · intro hlen
      exact List.length_eq_zero.mp (by omega)
  · intro hp
    have hq2 : q2 = [] := hnone.mp hp
    subst hq2
    refine ⟨by rw [aout_FifoPop_nil _ hq], ?_⟩
    exact (aout_FifoPop_cons _ b [] (IsQueue_push w _ [] b hq (by simp))).1

/-- C7 on a run that empties the queue twice and pushes buffer 3 again after
it was popped. -/
theorem fifo_order_witness :
    (runOps 32 [.push 3, .push 5, .pop, .pop, .pop, .push 3, .pop]
        (aout_FifoInit demo 48000)).2.reduceOption
      <+: pushedBy [.push 3, .push 5, .pop, .pop, .pop, .push 3, .pop] ∧
    ((aout_FifoPop (runOps 32 [.push 3, .push 5, .pop, .pop, .pop, .push 3, .pop]
        (aout_FifoInit demo 48000)).1).1 = none ↔
      (runOps 32 [.push 3, .push 5, .pop, .pop, .pop, .push 3, .pop]
          (aout_FifoInit demo 48000)).2.reduceOption.length
        = (pushedBy [.push 3, .push 5, .pop, .pop, .pop, .push 3, .pop]).length) ∧
    ((aout_FifoPop (runOps 32 [.push 3, .push 5, .pop, .pop, .pop, .push 3, .pop]
        (aout_FifoInit demo 48000)).1).1 = none →
      (aout_FifoPop (runOps 32 [.push 3, .push 5, .pop, .pop, .pop, .push 3, .pop]
          (aout_FifoInit demo 48000)).1).2
        = (runOps 32 [.push 3, .push 5, .pop, .pop, .pop, .push 3, .pop]
            (aout_FifoInit demo 48000)).1 ∧
      (aout_FifoPop (aout_FifoPush 32 (runOps 32
          [.push 3, .push 5, .pop, .pop, .pop, .push 3, .pop]
          (aout_FifoInit demo 48000)).1 9)).1 = some 9) :=
  fifo_order 32 demo 48000 [.push 3, .push 5, .pop, .pop, .pop, .push 3, .pop] 9 (by decide)

/-- C8: in a state that holds a queue `l`, with fuel for the length of `l`,
`aout_FifoMoveDates` by `d` ends in a state that holds the same queue, in
which the clock date and both dates of every queued buffer are `d` further
and everything else is as before; and `aout_FifoMoveDates` by `-d` from
there ends in the very state of the start: every date, the clock remainder
and divider, the sample counts, the links and the order are restored. -/
theorem shiftDates_round_trip (fuel : Nat) (s : aout_state) (l : List Nat) (d : Int)
    (h : IsQueue s l) (hf : l.length ≤ fuel) :
    ∃ s1, aout_FifoMoveDates fuel s d = some s1 ∧ IsQueue s1 l ∧
      s1.fifo.end_date.date = s.fifo.end_date.date + d ∧
      (∀ a ∈ l, (s1.bufs a).start_date = (s.bufs a).start_date + d ∧
        (s1.bufs a).end_date = (s.bufs a).end_date + d) ∧
      aout_FifoMoveDates fuel s1 (-d) = some s := by
  have hq1 : IsQueue
      { bufs := fun a => if a ∈ l then shiftBuf d (s.bufs a) else s.bufs a,
        freed := s.freed,
        fifo := { s.fifo with end_date := aout_DateMove s.fifo.end_date d } } l := by
    refine ⟨Seg_congr s.bufs _ l _ _ ?_ h.1, h.2.1, h.2.2⟩
    intro a ha
    simp [ha, shiftBuf]
  refine ⟨_, aout_FifoMoveDates_eq fuel s l d h hf, hq1, rfl, ?_, ?_⟩
  · intro a ha
    simp [ha, shiftBuf]
  · rw [aout_FifoMoveDates_eq fuel _ l (-d) hq1 hf]
    congr 1
    apply aout_state.ext
    · funext a
      by_cases ha : a ∈ l
      · simp [ha, shiftBuf]
      · simp [ha]
    · rfl
    · simp [aout_DateMove]

/-- C8 on a queue of two buffers of `demo`, shifted by `-250` and back. -/
theorem shiftDates_round_trip_witness :
    ∃ s1, aout_FifoMoveDates 2 (pushAll 32 (aout_FifoInit demo 48000) [4, 6]) (-250) = some s1 ∧
      IsQueue s1 [4, 6] ∧
      s1.fifo.end_date.date
        = (pushAll 32 (aout_FifoInit demo 48000) [4, 6]).fifo.end_date.date + (-250) ∧
      (∀ a ∈ [4, 6],
        (s1.bufs a).start_date
          = ((pushAll 32 (aout_FifoInit demo 48000) [4, 6]).bufs a).start_date + (-250) ∧
        (s1.bufs a).end_date
          = ((pushAll 32 (aout_FifoInit demo 48000) [4, 6]).bufs a).end_date + (-250)) ∧
      aout_FifoMoveDates 2 s1 (- (-250))
        = some (pushAll 32 (aout_FifoInit demo 48000) [4, 6]) :=
  shiftDates_round_trip 2 (pushAll 32 (aout_FifoInit demo 48000) [4, 6]) [4, 6] (-250)
    (IsQueue_push 32 _ [4] 6 (IsQueue_push 32 _ [] 4 (IsQueue_init demo 48000) (by simp))
      (by decide))
    (by decide)

/-- C9: in a state that holds a queue `l`, with fuel for the length of `l`,
`aout_FifoSet` to the date `t` ends in a state that holds the empty queue:
the head is `NULL` and a pop returns `NULL` and changes nothing; `nextStart`
returns `t`, the clock remainder is 0, the divider is the one before; the
release log has grown by exactly the buffers of `l`, in queue order, so each
buffer that was queued has been released once more than before and no other
buffer has been released; no buffer record was written. -/
theorem reset_post_state (fuel : Nat) (s : aout_state) (l : List Nat) (t : Int)
    (h : IsQueue s l) (hf : l.length ≤ fuel) :
    ∃ s1, aout_FifoSet fuel s t = some s1 ∧ IsQueue s1 [] ∧
      s1.fifo.p_first = none ∧ aout_FifoPop s1 = (none, s1) ∧
      aout_FifoNextStart s1 = t ∧
      s1.fifo.end_date.i_remainder = 0 ∧
      s1.fifo.end_date.i_divider = s.fifo.end_date.i_divider ∧
      s1.freed = s.freed ++ l ∧
      (∀ a ∈ l, s1.freed.count a = s.freed.count a + 1) ∧
      (∀ a, a ∉ l → s1.freed.count a = s.freed.count a) ∧
      s1.bufs = s.bufs := by
  have hq : IsQueue
      { bufs := s.bufs, freed := s.freed ++ l,
        fifo := { p_first := none, pp_last := .fifo_first,
                  end_date := aout_DateSet s.fifo.end_date t } } [] :=
    ⟨rfl, List.nodup_nil, rfl⟩
  refine ⟨_, aout_FifoSet_eq fuel s l t h hf, hq, rfl, aout_FifoPop_nil _ hq, rfl, rfl, rfl,
    rfl, ?_, ?_, rfl⟩
  · intro a ha
    simp only [List.count_append]
    rw [List.count_eq_one_of_mem h.2.1 ha]
  · intro a ha
    simp only [List.count_append]
    rw [List.count_eq_zero_of_not_mem ha, Nat.add_zero]

/-- C9 on a queue of three buffers of `demo`, reset to the date 777. -/
theorem reset_post_state_witness :
    ∃ s1, aout_FifoSet 3 (pushAll 32 (aout_FifoInit demo 48000) [4, 6, 1]) 777 = some s1 ∧
      IsQueue s1 [] ∧
      s1.fifo.p_first = none ∧ aout_FifoPop s1 = (none, s1) ∧
      aout_FifoNextStart s1 = 777 ∧
      s1.fifo.end_date.i_remainder = 0 ∧
      s1.fifo.end_date.i_divider
        = (pushAll 32 (aout_FifoInit demo 48000) [4, 6, 1]).fifo.end_date.i_divider ∧
      s1.freed = (pushAll 32 (aout_FifoInit demo 48000) [4, 6, 1]).freed ++ [4, 6, 1] ∧
      (∀ a ∈ [4, 6, 1], s1.freed.count a
        = (pushAll 32 (aout_FifoInit demo 48000) [4, 6, 1]).freed.count a + 1) ∧
      (∀ a, a ∉ [4, 6, 1] → s1.freed.count a
        = (pushAll 32 (aout_FifoInit demo 48000) [4, 6, 1]).freed.count a) ∧
      s1.bufs = (pushAll 32 (aout_FifoInit demo 48000) [4, 6, 1]).bufs :=
  reset_post_state 3 (pushAll 32 (aout_FifoInit demo 48000) [4, 6, 1]) [4, 6, 1] 777
    (IsQueue_push 32 _ [4, 6] 1
      (IsQueue_push 32 _ [4] 6 (IsQueue_push 32 _ [] 4 (IsQueue_init demo 48000) (by simp))
        (by decide))
      (by decide))
    (by decide)

/-- C10, the code at a queue of one buffer: after `init(48000)` and the push
of buffer 0 of `demo`, `aout_FifoDestroy` releases buffer 0 and leaves
`p_first` on it, so that a pop afterwards returns the released buffer; on the
same queue `aout_FifoSet`, which runs the same loop, leaves `p_first` at
`NULL` and a pop returns `NULL`. -/
theorem destroy_leaves_head :
    (aout_FifoDestroy 1 (aout_FifoPush 32 (aout_FifoInit demo 48000) 0)).map
        (fun s1 => (s1.freed, s1.fifo.p_first, (aout_FifoPop s1).1))
      = some ([0], some 0, some 0) ∧
    (aout_FifoSet 1 (aout_FifoPush 32 (aout_FifoInit demo 48000) 0) 0).map
        (fun s1 => (s1.freed, s1.fifo.p_first, (aout_FifoPop s1).1))
      = some ([0], none, none) := by
  decide

/-! ## The FIFO: the clock and the last buffer pushed -/

/-- Right after a push the clock date is the end date of the pushed buffer,
in both branches of the continuity rule. -/
theorem aout_FifoPush_date_eq_end (w : Nat) (s : aout_state) (b : Nat) :
    aout_DateGet (aout_FifoPush w s b).fifo.end_date
      = ((aout_FifoPush w s b).bufs b).end_date := by
  rw [aout_FifoPush_fifo, aout_FifoPush_bufs_self]
  by_cases hd : s.fifo.end_date.date = 0
  · simp [hd, aout_DateGet, aout_DateSet]
  · simp only [ne_eq, hd, not_false_eq_true, if_true, aout_DateGet]
    exact (aout_DateIncrement_snd _ _ _).symm

/-- A pop writes neither a buffer, nor the release log, nor the clock. -/
theorem aout_FifoPop_keeps (s : aout_state) :
    (aout_FifoPop s).2.bufs = s.bufs ∧ (aout_FifoPop s).2.freed = s.freed ∧
    (aout_FifoPop s).2.fifo.end_date = s.fifo.end_date := by
  unfold aout_FifoPop
  cases s.fifo.p_first with
  | none => exact ⟨rfl, rfl, rfl⟩
  | some a =>
    simp only
    split <;> exact ⟨rfl, rfl, rfl⟩

/-- A shift of the dates keeps the queue. -/
theorem IsQueue_shift (s : aout_state) (l : List Nat) (d : Int) (h : IsQueue s l) :
    IsQueue
      { bufs := fun a => if a ∈ l then shiftBuf d (s.bufs a) else s.bufs a,
        freed := s.freed,
        fifo := { s.fifo with end_date := aout_DateMove s.fifo.end_date d } } l := by
  refine ⟨Seg_congr s.bufs _ l _ _ ?_ h.1, h.2.1, h.2.2⟩
  intro a ha
  simp [ha, shiftBuf]

/-- Over any legal sequence of the four operations, run with fuel for the
number of buffers that can be queued: the run ends, the final state holds
the queue the sequence leaves, and when that queue is not empty its tail is
the last buffer pushed and the clock date is the end date of that buffer. -/
theorem runQueue_tail (w fuel : Nat) (ops : List QueueOp) :
    ∀ (s : aout_state) (q : List Nat) (last : Option Nat), IsQueue s q →
      legalOps q ops = true → q.length + ops.length ≤ fuel →
      (∀ z, q.getLast? = some z →
        last = some z ∧ aout_DateGet s.fifo.end_date = (s.bufs z).end_date) →
      ∃ s2, runQueue w fuel ops s = some s2 ∧ IsQueue s2 (queueAfter q ops) ∧
        ∀ z, (queueAfter q ops).getLast? = some z →
          lastPushed last ops = some z ∧
          aout_DateGet s2.fifo.end_date = (s2.bufs z).end_date := by
  induction ops with
  | nil =>
    intro s q last h _ _ hinv
    exact ⟨s, rfl, h, hinv⟩
  | cons op ops ih =>
    intro s q last h hl hf hinv
    simp only [List.length_cons] at hf
    cases op with
    | push b =>
      simp only [legalOps, Bool.and_eq_true, decide_eq_true_eq] at hl
      simp only [runQueue, queueAfter, lastPushed]
      refine ih (aout_FifoPush w s b) (q ++ [b]) (some b) (IsQueue_push w s q b h hl.1) hl.2
        (by simp only [List.length_append, List.length_singleton]; omega) ?_
      intro z hz
      rw [List.getLast?_concat] at hz
      cases hz
      exact ⟨rfl, aout_FifoPush_date_eq_end w s b⟩
    | pop =>
      simp only [legalOps] at hl
      simp only [runQueue, queueAfter, lastPushed]
      obtain ⟨kb, _, kd⟩ := aout_FifoPop_keeps s
      cases q with
      | nil =>
        rw [aout_FifoPop_nil s h]
        exact ih s [] last h hl (by simp only [List.length_nil]; omega) hinv
      | cons a q1 =>
        obtain ⟨_, hq1, _⟩ := aout_FifoPop_cons s a q1 h
        refine ih (aout_FifoPop s).2 q1 last hq1 hl
          (by simp only [List.length_cons] at hf ⊢; omega) ?_
        intro z hz
        have hz2 : (a :: q1).getLast? = some z := by
          cases q1 with
          | nil => simp at hz
          | cons c q2 => rw [List.getLast?_cons_cons]; exact hz
        rw [kb, kd]
        exact hinv z hz2
    | reset t =>
      simp only [legalOps] at hl
      simp only [runQueue, queueAfter, lastPushed]
      rw [aout_FifoSet_eq fuel s q t h (by omega)]
      simp only [Option.some_bind]
      refine ih _ [] last ⟨rfl, List.nodup_nil, rfl⟩ hl
        (by simp only [List.length_nil]; omega) ?_
      intro z hz
      simp at hz
    | shift d =>
      simp only [legalOps] at hl
      simp only [runQueue, queueAfter, lastPushed]
      rw [aout_FifoMoveDates_eq fuel s q d h (by omega)]
      simp only [Option.some_bind]
      refine ih _ q last (IsQueue_shift s q d h) hl (by omega) ?_
      intro z hz
      have hmem : z ∈ q := List.mem_of_getLast?_eq_some hz
      obtain ⟨h1, h2⟩ := hinv z hz
      refine ⟨h1, ?_⟩
      simp only [aout_DateGet, aout_DateMove, hmem, if_true, shiftBuf]
      simp only [aout_DateGet] at h2
      rw [h2]

/-- Over any sequence of pushes and pops, from a state in which the clock
stands at the end date of the buffer `last` (at 0 without one), the run ends
in a state in which the clock stands at the end date of the last buffer
pushed. -/
theorem runQueue_last (w fuel : Nat) (ops : List QueueOp) :
    ∀ (s : aout_state) (last : Option Nat), pushPopOnly ops = true → ClockAtLast s last →
      ∃ s2, runQueue w fuel ops s = some s2 ∧ ClockAtLast s2 (lastPushed last ops) := by
  induction ops with
  | nil =>
    intro s last _ h
    exact ⟨s, rfl, h⟩
  | cons op ops ih =>
    intro s last hp h
    cases op with
    | push b =>
      simp only [pushPopOnly] at hp
      simp only [runQueue, lastPushed]
      exact ih _ (some b) hp (aout_FifoPush_date_eq_end w s b)
    | pop =>
      simp only [pushPopOnly] at hp
      simp only [runQueue, lastPushed]
      obtain ⟨kb, _, kd⟩ := aout_FifoPop_keeps s
      refine ih _ last hp ?_
      cases last with
      | none => simpa [ClockAtLast, kd] using h
      | some b => simpa [ClockAtLast, kd, kb] using h
    | reset t => simp [pushPopOnly] at hp
    | shift d => simp [pushPopOnly] at hp

/-- C11, as stated, fails. On the memory `demo`, after `init(48000)` and the
push of buffer 0 (end date 900), `reset(777)` leaves the clock at 777, which
is neither the end date of the last buffer pushed nor 0; and after the push
and the pop of buffer 0, a shift by 5 leaves the clock at 905 while the
buffer, no longer queued, keeps the end date 900. -/
theorem fifo_clock_invariant_counterexample :
    (runQueue 32 1 [.push 0, .reset 777] (aout_FifoInit demo 48000)).map
        (fun s => (aout_DateGet s.fifo.end_date, (s.bufs 0).end_date))
      = some (777, 900) ∧
    lastPushed none [.push 0, .reset 777] = some 0 ∧
    (runQueue 32 1 [.push 0, .pop, .shift 5] (aout_FifoInit demo 48000)).map
        (fun s => (aout_DateGet s.fifo.end_date, (s.bufs 0).end_date))
      = some (905, 900) ∧
    lastPushed none [.push 0, .pop, .shift 5] = some 0 := by
  decide

/-- C11, amended: run from `init(rate)` any sequence of push, pop, reset and
shift that respects the ownership rule, with fuel for the length of the
sequence. The run ends in a state that holds the queue the sequence leaves.
Whenever that queue is not empty, its tail is the last buffer pushed and the
clock date is the end date of that buffer. When the sequence is made of
pushes and pops only, the clock date is the end date of the last buffer
pushed also after that buffer was popped, and 0 if no buffer was pushed. -/
theorem fifo_clock_invariant (w fuel : Nat) (s0 : aout_state) (i_rate : Nat)
    (ops : List QueueOp) (hlegal : legalOps [] ops = true) (hfuel : ops.length ≤ fuel) :
    ∃ s, runQueue w fuel ops (aout_FifoInit s0 i_rate) = some s ∧
      IsQueue s (queueAfter [] ops) ∧
      (queueAfter [] ops ≠ [] →
        (queueAfter [] ops).getLast? = lastPushed none ops ∧
        ClockAtLast s (lastPushed none ops)) ∧
      (pushPopOnly ops = true → ClockAtLast s (lastPushed none ops)) := by
  obtain ⟨s, hrun, hq, hinv⟩ := runQueue_tail w fuel ops (aout_FifoInit s0 i_rate) [] none
    (IsQueue_init s0 i_rate) hlegal (by simpa using hfuel) (by intro z hz; simp at hz)
  refine ⟨s, hrun, hq, ?_, ?_⟩
  · intro hne
    obtain ⟨l2, z, hz⟩ : ∃ l2 z, queueAfter [] ops = l2 ++ [z] := by
      rcases List.eq_nil_or_concat (queueAfter [] ops) with h0 | ⟨l2, z, h1⟩
      · exact absurd h0 hne
      · exact ⟨l2, z, by rw [h1, List.concat_eq_append]⟩
    have hlast : (queueAfter [] ops).getLast? = some z := by
      rw [hz, List.getLast?_concat]
    obtain ⟨h1, h2⟩ := hinv z hlast
    rw [hlast, h1]
    exact ⟨rfl, h2⟩
  · intro hp
    obtain ⟨s2, hrun2, hc⟩ := runQueue_last w fuel ops (aout_FifoInit s0 i_rate) none hp rfl
    rw [hrun] at hrun2
    cases hrun2
    exact hc

/-- The amended C11 on a run over `demo` with a reset and a shift in it that
ends with two buffers queued. -/
theorem fifo_clock_invariant_witness :
    ∃ s, runQueue 32 7 [.push 0, .reset 777, .push 1, .pop, .push 2, .shift (-40), .push 0]
        (aout_FifoInit demo 48000) = some s ∧
      IsQueue s (queueAfter []
        [.push 0, .reset 777, .push 1, .pop, .push 2, .shift (-40), .push 0]) ∧
      (queueAfter [] [.push 0, .reset 777, .push 1, .pop, .push 2, .shift (-40), .push 0]
          ≠ [] →
        (queueAfter []
            [.push 0, .reset 777, .push 1, .pop, .push 2, .shift (-40), .push 0]).getLast?
          = lastPushed none
              [.push 0, .reset 777, .push 1, .pop, .push 2, .shift (-40), .push 0] ∧
        ClockAtLast s (lastPushed none
          [.push 0, .reset 777, .push 1, .pop, .push 2, .shift (-40), .push 0])) ∧
      (pushPopOnly [.push 0, .reset 777, .push 1, .pop, .push 2, .shift (-40), .push 0]
          = true →
        ClockAtLast s (lastPushed none
          [.push 0, .reset 777, .push 1, .pop, .push 2, .shift (-40), .push 0])) :=
  fifo_clock_invariant 32 7 demo 48000
    [.push 0, .reset 777, .push 1, .pop, .push 2, .shift (-40), .push 0]
    (by decide) (by decide)

/-! ## Formats: channel count and frame size -/

/-- The `switch` of `aout_FormatNbChannels` computes the table of the spec on
the masked layout, and the LFE test adds one. -/
theorem aout_FormatNbChannels_eq (K : aout_chan_consts) (p : audio_sample_format_t) :
    aout_FormatNbChannels K p
      = specChannelBase K (p.i_channels &&& K.AOUT_CHAN_MASK)
        + (if p.i_channels &&& K.AOUT_CHAN_LFE ≠ 0 then 1 else 0) := by
  unfold aout_FormatNbChannels specChannelBase
  simp only [List.mem_cons, List.mem_singleton, List.not_mem_nil, or_false]
  split <;> rfl

/-- Setting the bits of `L` in `c` does not show through a mask that `L`
does not meet. -/
theorem or_and_mask (c L M : Nat) (h : L &&& M = 0) : (c ||| L) &&& M = c &&& M := by
  apply Nat.eq_of_testBit_eq
  intro i
  have hi : (L &&& M).testBit i = false := by rw [h]; simp
  rw [Nat.testBit_and] at hi
  rw [Nat.testBit_and, Nat.testBit_and, Nat.testBit_or]
  cases hc : c.testBit i <;> cases hL : L.testBit i <;> cases hM : M.testBit i <;>
    simp_all

/-- The bits of `L` are set once they have been set. -/
theorem or_and_self (c L : Nat) : (c ||| L) &&& L = L := by
  apply Nat.eq_of_testBit_eq
  intro i
  rw [Nat.testBit_and, Nat.testBit_or]
  cases c.testBit i <;> cases L.testBit i <;> rfl

/-- C12: for every assignment of the `AOUT_CHAN_*` constants with distinct
case labels and a nonzero LFE flag outside the mask, and every layout value,
`aout_FormatNbChannels` returns the base of the masked layout plus 1 when
the LFE bit is set; the base is 1 for channel1, channel2 and mono, 2 for
dual-mono, stereo and dolby, 3 for 3F and 2F1R, 4 for 3F1R and 2F2R, 5 for
3F2R, and 0 for any value that is none of these; and adding the LFE flag to
any layout gives the base plus 1, that is one more than without the flag. -/
theorem channel_count_table (K : aout_chan_consts) (p : audio_sample_format_t)
    (hdist : (chanLabels K).Nodup) (hlfe : K.AOUT_CHAN_LFE ≠ 0)
    (hout : K.AOUT_CHAN_LFE &&& K.AOUT_CHAN_MASK = 0) :
    aout_FormatNbChannels K p
      = specChannelBase K (p.i_channels &&& K.AOUT_CHAN_MASK)
        + (if p.i_channels &&& K.AOUT_CHAN_LFE ≠ 0 then 1 else 0) ∧
    (specChannelBase K K.AOUT_CHAN_CHANNEL1 = 1 ∧ specChannelBase K K.AOUT_CHAN_CHANNEL2 = 1 ∧
      specChannelBase K K.AOUT_CHAN_MONO = 1 ∧ specChannelBase K K.AOUT_CHAN_CHANNEL = 2 ∧
      specChannelBase K K.AOUT_CHAN_STEREO = 2 ∧ specChannelBase K K.AOUT_CHAN_DOLBY = 2 ∧
      specChannelBase K K.AOUT_CHAN_3F = 3 ∧ specChannelBase K K.AOUT_CHAN_2F1R = 3 ∧
      specChannelBase K K.AOUT_CHAN_3F1R = 4 ∧ specChannelBase K K.AOUT_CHAN_2F2R = 4 ∧
      specChannelBase K K.AOUT_CHAN_3F2R = 5) ∧
    (∀ x, x ∉ chanLabels K → specChannelBase K x = 0) ∧
    aout_FormatNbChannels K { p with i_channels := p.i_channels ||| K.AOUT_CHAN_LFE }
      = specChannelBase K (p.i_channels &&& K.AOUT_CHAN_MASK) + 1 ∧
    (p.i_channels &&& K.AOUT_CHAN_LFE = 0 →
      aout_FormatNbChannels K { p with i_channels := p.i_channels ||| K.AOUT_CHAN_LFE }
        = aout_FormatNbChannels K p + 1) := by
  have hadd : aout_FormatNbChannels K { p with i_channels := p.i_channels ||| K.AOUT_CHAN_LFE }
      = specChannelBase K (p.i_channels &&& K.AOUT_CHAN_MASK) + 1 := by
    rw [aout_FormatNbChannels_eq]
    simp only [or_and_mask _ _ _ hout, or_and_self, ne_eq, hlfe, not_false_eq_true, if_true]
  refine ⟨aout_FormatNbChannels_eq K p, ?_, ?_, hadd, ?_⟩
  · have hrev := List.nodup_reverse.mpr hdist
    simp only [chanLabels, List.reverse_cons, List.reverse_nil, List.nil_append,
      List.cons_append, List.singleton_append, List.nodup_cons, List.mem_cons,
      List.mem_singleton, List.not_mem_nil, or_false, not_or, List.nodup_nil,
      and_true] at hrev
    simp [specChannelBase, hrev]
  · intro x hx
    simp only [chanLabels, List.mem_cons, List.mem_singleton, List.not_mem_nil, or_false,
      not_or] at hx
    simp [specChannelBase, hx]
  · intro h0
    rw [hadd, aout_FormatNbChannels_eq K p, if_neg (by simpa using h0)]

/-- C12 with the A/52 channel codes, on the layout 3F2R (7). -/
theorem channel_count_table_witness :
    aout_FormatNbChannels demoChan ⟨1, 48000, 7, 0, 0⟩
      = specChannelBase demoChan (7 &&& demoChan.AOUT_CHAN_MASK)
        + (if 7 &&& demoChan.AOUT_CHAN_LFE ≠ 0 then 1 else 0) ∧
    aout_FormatNbChannels demoChan ⟨1, 48000, 7 ||| demoChan.AOUT_CHAN_LFE, 0, 0⟩
      = specChannelBase demoChan (7 &&& demoChan.AOUT_CHAN_MASK) + 1 ∧
    aout_FormatNbChannels demoChan ⟨1, 48000, 7 ||| demoChan.AOUT_CHAN_LFE, 0, 0⟩
      = aout_FormatNbChannels demoChan ⟨1, 48000, 7, 0, 0⟩ + 1 ∧
    specChannelBase demoChan demoChan.AOUT_CHAN_3F2R = 5 :=
  have h := channel_count_table demoChan ⟨1, 48000, 7, 0, 0⟩ (by decide) (by decide)
    (by decide)
  ⟨h.1, h.2.2.2.1, h.2.2.2.2 (by decide), h.2.1.2.2.2.2.2.2.2.2.2.2⟩

/-- The `switch` of `aout_FormatPrepare` when the case labels are distinct:
width 1, 2 or 4 on the PCM labels, a return on the pass-through labels. -/
theorem prepareResult_label (F : aout_fmt_consts) (x : Nat)
    (hdist : (pcmLabels F ++ passLabels F).Nodup) :
    (x ∈ [F.AOUT_FMT_U8, F.AOUT_FMT_S8] → prepareResult F x = some 1) ∧
    (x ∈ [F.AOUT_FMT_U16_LE, F.AOUT_FMT_U16_BE, F.AOUT_FMT_S16_LE, F.AOUT_FMT_S16_BE] →
      prepareResult F x = some 2) ∧
    (x ∈ [F.AOUT_FMT_FLOAT32, F.AOUT_FMT_FIXED32] → prepareResult F x = some 4) ∧
    (x ∈ passLabels F → prepareResult F x = none) := by
  have hrev := List.nodup_reverse.mpr hdist
  simp only [pcmLabels, passLabels, List.cons_append, List.nil_append, List.reverse_cons,
    List.reverse_nil, List.singleton_append, List.nodup_cons, List.mem_cons,
    List.mem_singleton, List.not_mem_nil, or_false, not_or, List.nodup_nil, and_true] at hrev
  simp only [passLabels, List.mem_cons, List.mem_singleton, List.not_mem_nil, or_false]
  refine ⟨?_, ?_, ?_, ?_⟩
  · rintro (rfl | rfl) <;> simp [prepareResult]
  · rintro (rfl | rfl | rfl | rfl) <;> simp [prepareResult, hrev]
  · rintro (rfl | rfl) <;> simp [prepareResult, hrev]
  · rintro (rfl | rfl | rfl) <;> simp [prepareResult, hrev]

/-- The `switch` of `aout_FormatPrepare` never returns on a PCM label,
whatever the values of the constants. -/
theorem prepareResult_pcm_some (F : aout_fmt_consts) (x : Nat) (hx : x ∈ pcmLabels F) :
    ∃ r, prepareResult F x = some r := by
  simp only [pcmLabels, List.mem_cons, List.mem_singleton, List.not_mem_nil, or_false] at hx
  unfold prepareResult
  split_ifs <;> first | exact ⟨_, rfl⟩ | (exfalso; tauto)

/-- The `switch` of `aout_FormatPrepare` on a value that is no label. -/
theorem prepareResult_default (F : aout_fmt_consts) (x : Nat)
    (hx : x ∉ pcmLabels F ++ passLabels F) : prepareResult F x = some 0 := by
  simp only [pcmLabels, passLabels, List.cons_append, List.nil_append, List.mem_cons,
    List.mem_singleton, List.not_mem_nil, or_false, not_or] at hx
  simp [prepareResult, hx]

/-- What `aout_FormatPrepare` writes when the `switch` leaves a width. -/
theorem aout_FormatPrepare_some (F : aout_fmt_consts) (K : aout_chan_consts)
    (p : audio_sample_format_t) (r : Nat) (h : prepareResult F p.i_format = some r) :
    aout_FormatPrepare F K p
      = { p with i_bytes_per_frame := r * aout_FormatNbChannels K p, i_frame_length := 1 } := by
  unfold aout_FormatPrepare
  rw [h]

/-- The channel count only reads the layout. -/
theorem aout_FormatNbChannels_congr (K : aout_chan_consts) (p q : audio_sample_format_t)
    (h : p.i_channels = q.i_channels) :
    aout_FormatNbChannels K p = aout_FormatNbChannels K q := by
  unfold aout_FormatNbChannels
  rw [h]

/-- Encoding, layout and rate are never written by `aout_FormatPrepare`. -/
theorem aout_FormatPrepare_keeps (F : aout_fmt_consts) (K : aout_chan_consts)
    (p : audio_sample_format_t) :
    (aout_FormatPrepare F K p).i_format = p.i_format ∧
    (aout_FormatPrepare F K p).i_channels = p.i_channels ∧
    (aout_FormatPrepare F K p).i_rate = p.i_rate := by
  unfold aout_FormatPrepare
  split <;> exact ⟨rfl, rfl, rfl⟩

/-- C13: with distinct case labels, for every descriptor whose encoding is a
fixed-width PCM kind, `aout_FormatPrepare` sets the bytes per frame to the
width times the channel count, the width being 1 for U8 and S8, 2 for the
four 16-bit kinds and 4 for FLOAT32 and FIXED32, sets the frame length to 1,
and leaves encoding, layout and rate as they were. -/
theorem prepare_pcm (F : aout_fmt_consts) (K : aout_chan_consts) (p : audio_sample_format_t)
    (hdist : (pcmLabels F ++ passLabels F).Nodup) (hpcm : p.i_format ∈ pcmLabels F) :
    (p.i_format ∈ [F.AOUT_FMT_U8, F.AOUT_FMT_S8] →
      (aout_FormatPrepare F K p).i_bytes_per_frame = 1 * aout_FormatNbChannels K p) ∧
    (p.i_format ∈ [F.AOUT_FMT_U16_LE, F.AOUT_FMT_U16_BE, F.AOUT_FMT_S16_LE,
        F.AOUT_FMT_S16_BE] →
      (aout_FormatPrepare F K p).i_bytes_per_frame = 2 * aout_FormatNbChannels K p) ∧
    (p.i_format ∈ [F.AOUT_FMT_FLOAT32, F.AOUT_FMT_FIXED32] →
      (aout_FormatPrepare F K p).i_bytes_per_frame = 4 * aout_FormatNbChannels K p) ∧
    (aout_FormatPrepare F K p).i_frame_length = 1 ∧
    (aout_FormatPrepare F K p).i_format = p.i_format ∧
    (aout_FormatPrepare F K p).i_channels = p.i_channels ∧
    (aout_FormatPrepare F K p).i_rate = p.i_rate := by
  obtain ⟨h1, h2, h4, _⟩ := prepareResult_label F p.i_format hdist
  obtain ⟨r, hr⟩ := prepareResult_pcm_some F p.i_format hpcm
  refine ⟨?_, ?_, ?_, ?_, aout_FormatPrepare_keeps F K p⟩
  · intro h; rw [aout_FormatPrepare_some F K p 1 (h1 h)]
  · intro h; rw [aout_FormatPrepare_some F K p 2 (h2 h)]
  · intro h; rw [aout_FormatPrepare_some F K p 4 (h4 h)]
  · rw [aout_FormatPrepare_some F K p r hr]

/-- C13 on a signed 16-bit stereo descriptor with stale derived fields: 4
bytes per frame. -/
theorem prepare_pcm_witness :
    (aout_FormatPrepare demoFmt demoChan ⟨5, 44100, 2, 77, 9⟩).i_bytes_per_frame
      = 2 * aout_FormatNbChannels demoChan ⟨5, 44100, 2, 77, 9⟩ ∧
    (aout_FormatPrepare demoFmt demoChan ⟨5, 44100, 2, 77, 9⟩).i_frame_length = 1 ∧
    (aout_FormatPrepare demoFmt demoChan ⟨5, 44100, 2, 77, 9⟩).i_format = 5 ∧
    (aout_FormatPrepare demoFmt demoChan ⟨5, 44100, 2, 77, 9⟩).i_channels = 2 ∧
    (aout_FormatPrepare demoFmt demoChan ⟨5, 44100, 2, 77, 9⟩).i_rate = 44100 :=
  have h := prepare_pcm demoFmt demoChan ⟨5, 44100, 2, 77, 9⟩ (by decide) (by decide)
  ⟨h.2.1 (by decide), h.2.2.2.1, h.2.2.2.2.1, h.2.2.2.2.2.1, h.2.2.2.2.2.2⟩

/-- C14: with distinct case labels, for every descriptor whose encoding is
SPDIF, A52 or DTS, `aout_FormatPrepare` returns the descriptor as it was
given, bytes per frame and frame length included. -/
theorem prepare_passthrough (F : aout_fmt_consts) (K : aout_chan_consts)
    (p : audio_sample_format_t) (hdist : (pcmLabels F ++ passLabels F).Nodup)
    (hpass : p.i_format ∈ passLabels F) :
    aout_FormatPrepare F K p = p := by
  unfold aout_FormatPrepare
  rw [(prepareResult_label F p.i_format hdist).2.2.2 hpass]

/-- C14 on an A52 descriptor carrying 1536 samples in 6144 bytes. -/
theorem prepare_passthrough_witness :
    aout_FormatPrepare demoFmt demoChan ⟨10, 48000, 7, 6144, 1536⟩
      = ⟨10, 48000, 7, 6144, 1536⟩ :=
  prepare_passthrough demoFmt demoChan ⟨10, 48000, 7, 6144, 1536⟩ (by decide) (by decide)

/-- C15: for every descriptor, and every value of the constants,
`aout_FormatPrepare` applied twice gives the descriptor it gives applied
once. -/
theorem prepare_idempotent (F : aout_fmt_consts) (K : aout_chan_consts)
    (p : audio_sample_format_t) :
    aout_FormatPrepare F K (aout_FormatPrepare F K p) = aout_FormatPrepare F K p := by
  cases h : prepareResult F p.i_format with
  | none =>
    have e : aout_FormatPrepare F K p = p := by
      unfold aout_FormatPrepare; rw [h]
    rw [e, e]
  | some r =>
    rw [aout_FormatPrepare_some F K p r h]
    rw [aout_FormatPrepare_some F K
      { p with i_bytes_per_frame := r * aout_FormatNbChannels K p, i_frame_length := 1 } r h]
    rw [aout_FormatNbChannels_congr K
      { p with i_bytes_per_frame := r * aout_FormatNbChannels K p, i_frame_length := 1 } p rfl]

/-- C16: for every descriptor `p` whose encoding is none of the case labels,
`aout_FormatPrepare` returns with 0 bytes per frame and frame length 1, the
other fields untouched; and for every descriptor `q` with a PCM encoding
whose masked layout is none of the layout labels and whose LFE bit is clear,
it returns with 0 bytes per frame and frame length 1. The function is total:
it cannot fail. -/
theorem prepare_sentinel (F : aout_fmt_consts) (K : aout_chan_consts)
    (p q : audio_sample_format_t)
    (hp : p.i_format ∉ pcmLabels F ++ passLabels F)
    (hq : q.i_format ∈ pcmLabels F)
    (hlayout : (q.i_channels &&& K.AOUT_CHAN_MASK) ∉ chanLabels K)
    (hlfe : q.i_channels &&& K.AOUT_CHAN_LFE = 0) :
    aout_FormatPrepare F K p = { p with i_bytes_per_frame := 0, i_frame_length := 1 } ∧
    aout_FormatNbChannels K q = 0 ∧
    (aout_FormatPrepare F K q).i_bytes_per_frame = 0 ∧
    (aout_FormatPrepare F K q).i_frame_length = 1 := by
  have hnb : aout_FormatNbChannels K q = 0 := by
    rw [aout_FormatNbChannels_eq, if_neg (by simpa using hlfe)]
    simp only [chanLabels, List.mem_cons, List.mem_singleton, List.not_mem_nil, or_false,
      not_or] at hlayout
    simp [specChannelBase, hlayout]
  obtain ⟨r, hr⟩ := prepareResult_pcm_some F q.i_format hq
  refine ⟨?_, hnb, ?_, ?_⟩
  · rw [aout_FormatPrepare_some F K p 0 (prepareResult_default F p.i_format hp)]
    simp
  · rw [aout_FormatPrepare_some F K q r hr]
    simp [hnb]
  · rw [aout_FormatPrepare_some F K q r hr]

/-- C16 on an encoding 99 that is no label, and on a float32 descriptor with
the layout 12, which is none of the A/52 codes. -/
theorem prepare_sentinel_witness :
    aout_FormatPrepare demoFmt demoChan ⟨99, 48000, 2, 77, 9⟩ = ⟨99, 48000, 2, 0, 1⟩ ∧
    aout_FormatNbChannels demoChan ⟨7, 48000, 12, 77, 9⟩ = 0 ∧
    (aout_FormatPrepare demoFmt demoChan ⟨7, 48000, 12, 77, 9⟩).i_bytes_per_frame = 0 ∧
    (aout_FormatPrepare demoFmt demoChan ⟨7, 48000, 12, 77, 9⟩).i_frame_length = 1 :=
  prepare_sentinel demoFmt demoChan ⟨99, 48000, 2, 77, 9⟩ ⟨7, 48000, 12, 77, 9⟩
    (by decide) (by decide) (by decide) (by decide)

/-! ## Buffers: allocation and submission -/

/-- C17, as stated, fails for sample counts that the fields cannot hold.
With a 64-bit `size_t` and a 32-bit sample count field, a request for
`2 ^ 32 + 1024` samples at 44100 Hz, 4 bytes per frame, frame length 1,
served at the address 8, returns a buffer stamped with 1024 samples. With a
32-bit `size_t`, a request for `2 ^ 30` samples of 4 bytes returns a buffer
whose byte count is 0, the product having wrapped, where
`2 ^ 30 * 4 / 1` is 4294967296. -/
theorem allocate_stamps_counterexample :
    (aout_BufferNew 64 32 (fun _ => some 8) demo ⟨5, 44100, 2, 4, 1⟩ 4294968320).toOption.map
        (fun r => (r.1, (r.2.bufs 8).i_nb_samples))
      = some (some 8, 1024) ∧
    (aout_BufferNew 32 32 (fun _ => some 8) demo ⟨5, 44100, 2, 4, 1⟩ 1073741824).toOption.map
        (fun r => (r.1, (r.2.bufs 8).i_nb_samples, (r.2.bufs 8).i_nb_bytes))
      = some (some 8, 1073741824, 0) ∧
    1073741824 * 4 / 1 = 4294967296 := by
  decide

/-- C17, amended: for every input stream with rate `> 0` and frame length
`> 0` and every sample count `n` of type `size_t` that the sample count
field of a buffer can hold (`n < 2 ^ sw`) and whose product with the bytes
per frame does not wrap around `size_t` (`n * bytesPerFrame < 2 ^ sz`): when
the allocation strategy, asked for the duration
`floor(1000000 * n / rate)`, gives the buffer `a`, `aout_BufferNew` returns
`a` with sample count `n`, byte count `n * bytesPerFrame / frameLength`,
start and end date 0; the link of `a`, the other buffers, the FIFO and the
release log are as before. -/
theorem allocate_stamps (sz sw : Nat) (aout_BufferAlloc : Int → Option Nat) (s : aout_state)
    (input : audio_sample_format_t) (n a : Nat)
    (_hrate : 0 < input.i_rate) (_hfl : 0 < input.i_frame_length)
    (hn : n < 2 ^ sz) (hnw : n < 2 ^ sw) (hprod : n * input.i_bytes_per_frame < 2 ^ sz)
    (halloc : aout_BufferAlloc ((1000000 * n / input.i_rate : Nat) : Int) = some a) :
    ∃ s1, aout_BufferNew sz sw aout_BufferAlloc s input n = .ok (some a, s1) ∧
      (s1.bufs a).i_nb_samples = n ∧
      (s1.bufs a).i_nb_bytes = n * input.i_bytes_per_frame / input.i_frame_length ∧
      (s1.bufs a).start_date = 0 ∧ (s1.bufs a).end_date = 0 ∧
      (s1.bufs a).p_next = (s.bufs a).p_next ∧
      (∀ b, b ≠ a → s1.bufs b = s.bufs b) ∧
      s1.fifo = s.fifo ∧ s1.freed = s.freed := by
  unfold aout_BufferNew
  simp only [Nat.mod_eq_of_lt hn, Nat.mod_eq_of_lt hnw, Nat.mod_eq_of_lt hprod, halloc]
  refine ⟨_, rfl, ?_, ?_, ?_, ?_, ?_, ?_, rfl, rfl⟩
  · simp [setBuf]
  · simp [setBuf]
  · simp [setBuf]
  · simp [setBuf]
  · simp [setBuf]
  · intro b hb
    simp [setBuf, Function.update_noteq hb]

/-- The amended C17 on a request for 1024 samples of 16-bit stereo at 44100 Hz,
served at the address 8 of `demo`: 4096 bytes, undated. -/
theorem allocate_stamps_witness :
    ∃ s1, aout_BufferNew 32 32 (fun d => if d = 23219 then some 8 else none) demo
        ⟨5, 44100, 2, 4, 1⟩ 1024 = .ok (some 8, s1) ∧
      (s1.bufs 8).i_nb_samples = 1024 ∧
      (s1.bufs 8).i_nb_bytes = 1024 * 4 / 1 ∧
      (s1.bufs 8).start_date = 0 ∧ (s1.bufs 8).end_date = 0 ∧
      (s1.bufs 8).p_next = (demo.bufs 8).p_next ∧
      (∀ b, b ≠ 8 → s1.bufs b = demo.bufs b) ∧
      s1.fifo = demo.fifo ∧ s1.freed = demo.freed :=
  allocate_stamps 32 32 (fun d => if d = 23219 then some 8 else none) demo
    ⟨5, 44100, 2, 4, 1⟩ 1024 8 (by decide) (by decide) (by decide) (by decide) (by decide)
    (by decide)

/-- When the allocation strategy gives no buffer, `aout_BufferNew` does not
return: its first statement after the allocation writes through the null
pointer. -/
theorem aout_BufferNew_null (sz sw : Nat) (aout_BufferAlloc : Int → Option Nat)
    (s : aout_state) (input : audio_sample_format_t) (n : Nat)
    (h : aout_BufferAlloc ((1000000 * (n % 2 ^ sz) / input.i_rate : Nat) : Int) = none) :
    aout_BufferNew sz sw aout_BufferAlloc s input n = .error .null_dereference := by
  unfold aout_BufferNew
  simp only [h]
  rfl

/-- C18, the code when the allocation fails: with a strategy that gives no
buffer, a request for 1024 samples at 44100 Hz ends in a write through the
null pointer (`p_buffer->i_nb_samples = i_nb_samples` comes before the test
`p_buffer == NULL`) instead of returning `NULL`. -/
theorem allocate_failure_faults :
    aout_BufferNew 32 32 (fun _ => none) demo ⟨5, 44100, 2, 4, 1⟩ 1024
      = .error .null_dereference := by
  rfl

/-- C19, the code on an undated buffer: buffer 3 of `demo` with its start
date put to 0 is released after the warning, and then its start date is read
for the deadline of the pacing wait, it is handed to `aout_InputPlay`, and
the mixer is run. -/
theorem undated_buffer_used_after_release :
    (aout_BufferPlay 32 20000 (fun _ _ => 0)
        (setBuf demo 3 { demo.bufs 3 with start_date := 0 }) ⟨5, 44100, 2, 4, 1⟩ 3).trace
      = [.access 3, .msg_Warn, .BufferFree 3, .access 3, .mwait (-20000), .InputPlay 3,
         .MixerRun] ∧
    (aout_BufferPlay 32 20000 (fun _ _ => 0)
        (setBuf demo 3 { demo.bufs 3 with start_date := 0 }) ⟨5, 44100, 2, 4, 1⟩ 3).state.freed
      = [3] := by
  decide

/-- C20, the code on a dated buffer of 4608 samples at 48000 Hz, with a
32-bit sample count: the product `4608 * 1000000` wraps around `2 ^ 32`
before the cast, and the end date is `1000000 + 6521` where
`floor(4608 * 1000000 / 48000)` is 96000 and where `aout_DateIncrement` from
a clock set to 1000000 returns 1096000. -/
theorem submit_end_date_wraps :
    ((aout_BufferPlay 32 20000 (fun _ _ => 0)
        (setBuf demo 0 { demo.bufs 0 with i_nb_samples := 4608, start_date := 1000000 })
        ⟨5, 48000, 2, 4, 1⟩ 0).state.bufs 0).end_date = 1006521 ∧
    (1000000 : Int) + ((4608 * 1000000 / 48000 : Nat) : Int) = 1096000 ∧
    (aout_DateIncrement 32 (aout_DateSet ⟨0, 48000, 5⟩ 1000000) 4608).2 = 1096000 := by
  decide

/-- On a dated buffer `aout_BufferPlay` writes the end date, waits until the
start date less the prepare time, and hands the buffer to `aout_InputPlay`.
When that returns -1 the call returns -1 and the mixer is not run; otherwise
the mixer is run once and the end of the body is reached without a `return`
statement. -/
theorem aout_BufferPlay_dated (sw : Nat) (AOUT_MAX_PREPARE_TIME : Int)
    (aout_InputPlay : aout_state → Nat → Int) (s : aout_state)
    (input : audio_sample_format_t) (b : Nat) (h : (s.bufs b).start_date ≠ 0) :
    ((aout_BufferPlay sw AOUT_MAX_PREPARE_TIME aout_InputPlay s input b).ret = some (-1) ↔
      aout_InputPlay (aout_BufferPlay sw AOUT_MAX_PREPARE_TIME aout_InputPlay s input b).state b
        = -1) ∧
    (aout_InputPlay (aout_BufferPlay sw AOUT_MAX_PREPARE_TIME aout_InputPlay s input b).state b
        = -1 →
      (aout_BufferPlay sw AOUT_MAX_PREPARE_TIME aout_InputPlay s input b).trace
        = [.access b, .access b, .access b,
           .mwait ((s.bufs b).start_date - AOUT_MAX_PREPARE_TIME), .InputPlay b]) ∧
    (aout_InputPlay (aout_BufferPlay sw AOUT_MAX_PREPARE_TIME aout_InputPlay s input b).state b
        ≠ -1 →
      (aout_BufferPlay sw AOUT_MAX_PREPARE_TIME aout_InputPlay s input b).trace
        = [.access b, .access b, .access b,
           .mwait ((s.bufs b).start_date - AOUT_MAX_PREPARE_TIME), .InputPlay b, .MixerRun] ∧
      (aout_BufferPlay sw AOUT_MAX_PREPARE_TIME aout_InputPlay s input b).ret = none) := by
  unfold aout_BufferPlay
  simp only [h, if_false]
  split
  · rename_i hp
    refine ⟨⟨fun _ => hp, fun _ => rfl⟩, fun _ => ?_, fun hne => absurd hp hne⟩
    simp only [setBuf, Function.update_same, List.cons_append, List.nil_append]
  · rename_i hp
    refine ⟨⟨fun e => ?_, fun e => absurd e hp⟩, fun e => absurd e hp, fun _ => ⟨?_, rfl⟩⟩
    · simp at e
    · simp only [setBuf, Function.update_same, List.cons_append, List.nil_append]

/-- C21, the code when the enqueueing succeeds: on buffer 0 of `demo` (start
date 500), with a prepare time of 20000 and `aout_InputPlay` returning 0,
`aout_BufferPlay` waits until `500 - 20000`, hands the buffer over, runs the
mixer once and reaches the end of its body without a `return` statement, so
that the call has no value. With `aout_InputPlay` returning -1 it returns -1
and does not run the mixer. -/
theorem submit_success_returns_nothing :
    (aout_BufferPlay 32 20000 (fun _ _ => 0) demo ⟨5, 48000, 2, 4, 1⟩ 0).ret = none ∧
    (aout_BufferPlay 32 20000 (fun _ _ => 0) demo ⟨5, 48000, 2, 4, 1⟩ 0).trace
      = [.access 0, .access 0, .access 0, .mwait (500 - 20000), .InputPlay 0, .MixerRun] ∧
    (aout_BufferPlay 32 20000 (fun _ _ => -1) demo ⟨5, 48000, 2, 4, 1⟩ 0).ret = some (-1) ∧
    (aout_BufferPlay 32 20000 (fun _ _ => -1) demo ⟨5, 48000, 2, 4, 1⟩ 0).trace
      = [.access 0, .access 0, .access 0, .mwait (500 - 20000), .InputPlay 0] := by
  decide

/-! ## The FIFO: the gap-free timeline -/

/-- The date an increment returns is not before the date it started from. -/
theorem aout_DateIncrement_ge (w : Nat) (p : audio_date_t) (n : Nat) :
    p.date ≤ (aout_DateIncrement w p n).2 := by
  unfold aout_DateIncrement
  simp only
  have hq : (0 : Int) ≤ ((n % 2 ^ 32 * 1000000 / p.i_divider : Nat) : Int) :=
    Int.ofNat_nonneg _
  generalize ((n % 2 ^ 32 * 1000000 / p.i_divider : Nat) : Int) = q at hq ⊢
  split <;> simp only <;> omega

/-- Linkage only depends on the dates of the buffers linked. -/
theorem Linked_congr (m m2 : Nat → aout_buffer_t) (l : List Nat)
    (h : ∀ a ∈ l, (m2 a).start_date = (m a).start_date ∧ (m2 a).end_date = (m a).end_date) :
    Linked m l → Linked m2 l := by
  induction l with
  | nil => intro _; trivial
  | cons a l ih =>
    cases l with
    | nil => intro _; trivial
    | cons b l2 =>
      intro hl
      refine ⟨?_, ih (fun x hx => h x (List.mem_cons_of_mem _ hx)) hl.2⟩
      rw [(h b (by simp)).1, (h a (by simp)).2]
      exact hl.1

/-- Linkage of what follows the head. -/
theorem Linked_tail (m : Nat → aout_buffer_t) (a : Nat) (l : List Nat) :
    Linked m (a :: l) → Linked m l := by
  cases l with
  | nil => intro _; trivial
  | cons b l2 => intro h; exact h.2

/-- Linkage with one more buffer at the tail. -/
theorem Linked_snoc (m : Nat → aout_buffer_t) (l : List Nat) (b : Nat) :
    Linked m l → (∀ z, l.getLast? = some z → (m b).start_date = (m z).end_date) →
      Linked m (l ++ [b]) := by
  induction l with
  | nil => intro _ _; trivial
  | cons a l ih =>
    cases l with
    | nil =>
      intro _ h
      exact ⟨h a rfl, trivial⟩
    | cons c l2 =>
      intro hl h
      refine ⟨hl.1, ih hl.2 ?_⟩
      intro z hz
      exact h z (by rw [List.getLast?_cons_cons]; exact hz)

/-- The dates of the buffers other than the pushed one are not written by a
push. -/
theorem aout_FifoPush_dates_other (w : Nat) (s : aout_state) (b a : Nat) (h : a ≠ b) :
    ((aout_FifoPush w s b).bufs a).start_date = (s.bufs a).start_date ∧
    ((aout_FifoPush w s b).bufs a).end_date = (s.bufs a).end_date := by
  rw [aout_FifoPush_bufs_other w s b a h]
  split <;> exact ⟨rfl, rfl⟩

/-- The dates of the pushed buffer when the clock date is nonzero: it starts
at the clock date and does not end before it starts. -/
theorem aout_FifoPush_dates_self (w : Nat) (s : aout_state) (b : Nat)
    (hd : aout_DateGet s.fifo.end_date ≠ 0) :
    ((aout_FifoPush w s b).bufs b).start_date = aout_DateGet s.fifo.end_date ∧
    ((aout_FifoPush w s b).bufs b).start_date ≤ ((aout_FifoPush w s b).bufs b).end_date := by
  have hd2 : s.fifo.end_date.date ≠ 0 := hd
  rw [aout_FifoPush_bufs_self, if_pos hd2]
  exact ⟨rfl, aout_DateIncrement_ge w s.fifo.end_date _⟩

/-- Linkage survives a shift of the dates of all the buffers of a queue `q`
that contains the buffers linked. -/
theorem Linked_shift (m : Nat → aout_buffer_t) (d : Int) (q l : List Nat)
    (hsub : ∀ a ∈ l, a ∈ q) :
    Linked m l → Linked (fun a => if a ∈ q then shiftBuf d (m a) else m a) l := by
  induction l with
  | nil => intro _; trivial
  | cons a l ih =>
    cases l with
    | nil => intro _; trivial
    | cons b l2 =>
      intro hl
      refine ⟨?_, ih (fun x hx => hsub x (List.mem_cons_of_mem _ hx)) hl.2⟩
      have ha : a ∈ q := hsub a (by simp)
      have hb : b ∈ q := hsub b (by simp)
      simp only [ha, hb, if_true, shiftBuf]
      rw [hl.1]

/-- Over any legal sequence of the four operations during which the clock
date is nonzero at every push, run with fuel for the buffers that can be
queued, from a state whose queue is linked, has no buffer that ends before
it starts, and has its tail ending at the clock date: the run ends in a
state whose queue has the same three properties. -/
theorem runQueue_gapfree (w fuel : Nat) (ops : List QueueOp) :
    ∀ (s : aout_state) (q : List Nat), IsQueue s q →
      legalOps q ops = true → q.length + ops.length ≤ fuel →
      clockNonzeroAtPushes w fuel ops s = true →
      Linked s.bufs q →
      (∀ a ∈ q, (s.bufs a).start_date ≤ (s.bufs a).end_date) →
      (∀ z, q.getLast? = some z → (s.bufs z).end_date = aout_FifoNextStart s) →
      ∃ s2, runQueue w fuel ops s = some s2 ∧ IsQueue s2 (queueAfter q ops) ∧
        Linked s2.bufs (queueAfter q ops) ∧
        (∀ a ∈ queueAfter q ops, (s2.bufs a).start_date ≤ (s2.bufs a).end_date) ∧
        (∀ z, (queueAfter q ops).getLast? = some z →
          (s2.bufs z).end_date = aout_FifoNextStart s2) := by
  induction ops with
  | nil =>
    intro s q h _ _ _ hl hle ht
    exact ⟨s, rfl, h, hl, hle, ht⟩
  | cons op ops ih =>
    intro s q h hlegal hf hnz hl hle ht
    simp only [List.length_cons] at hf
    cases op with
    | push b =>
      simp only [legalOps, Bool.and_eq_true, decide_eq_true_eq] at hlegal
      simp only [clockNonzeroAtPushes, Bool.and_eq_true, decide_eq_true_eq] at hnz
      simp only [runQueue, queueAfter]
      have hne : ∀ a ∈ q, a ≠ b := fun a ha e => hlegal.1 (e ▸ ha)
      obtain ⟨hstart, hse⟩ := aout_FifoPush_dates_self w s b hnz.1
      refine ih (aout_FifoPush w s b) (q ++ [b]) (IsQueue_push w s q b h hlegal.1) hlegal.2
        (by simp only [List.length_append, List.length_singleton]; omega) hnz.2 ?_ ?_ ?_
      · refine Linked_snoc _ q b
          (Linked_congr s.bufs _ q (fun a ha => aout_FifoPush_dates_other w s b a (hne a ha)) hl)
          ?_
        intro z hz
        have hzq : z ∈ q := List.mem_of_getLast?_eq_some hz
        rw [hstart, (aout_FifoPush_dates_other w s b z (hne z hzq)).2, ht z hz]
        rfl
      · intro a ha
        rcases List.mem_append.mp ha with ha | ha
        · obtain ⟨e1, e2⟩ := aout_FifoPush_dates_other w s b a (hne a ha)
          rw [e1, e2]
          exact hle a ha
        · rw [List.mem_singleton] at ha
          subst ha
          exact hse
      · intro z hz
        rw [List.getLast?_concat] at hz
        cases hz
        exact (aout_FifoPush_date_eq_end w s b).symm
    | pop =>
      simp only [legalOps] at hlegal
      simp only [clockNonzeroAtPushes] at hnz
      simp only [runQueue, queueAfter]
      obtain ⟨kb, _, kd⟩ := aout_FifoPop_keeps s
      cases q with
      | nil =>
        rw [aout_FifoPop_nil s h] at hnz ⊢
        exact ih s [] h hlegal (by simp only [List.length_nil]; omega) hnz hl hle ht
      | cons a q1 =>
        obtain ⟨_, hq1, _⟩ := aout_FifoPop_cons s a q1 h
        refine ih (aout_FifoPop s).2 q1 hq1 hlegal
          (by simp only [List.length_cons] at hf ⊢; omega) hnz ?_ ?_ ?_
        · rw [kb]; exact Linked_tail s.bufs a q1 hl
        · intro x hx
          rw [kb]; exact hle x (List.mem_cons_of_mem _ hx)
        · intro z hz
          have hz2 : (a :: q1).getLast? = some z := by
            cases q1 with
            | nil => simp at hz
            | cons c q2 => rw [List.getLast?_cons_cons]; exact hz
          unfold aout_FifoNextStart
          rw [kb, kd]
          exact ht z hz2
    | reset t =>
      simp only [legalOps] at hlegal
      simp only [clockNonzeroAtPushes, aout_FifoSet_eq fuel s q t h (by omega)] at hnz
      simp only [runQueue, queueAfter]
      rw [aout_FifoSet_eq fuel s q t h (by omega)]
      simp only [Option.some_bind]
      refine ih _ [] ⟨rfl, List.nodup_nil, rfl⟩ hlegal
        (by simp only [List.length_nil]; omega) hnz trivial ?_ ?_
      · intro a ha; simp at ha
      · intro z hz; simp at hz
    | shift d =>
      simp only [legalOps] at hlegal
      simp only [clockNonzeroAtPushes, aout_FifoMoveDates_eq fuel s q d h (by omega)] at hnz
      simp only [runQueue, queueAfter]
      rw [aout_FifoMoveDates_eq fuel s q d h (by omega)]
      simp only [Option.some_bind]
      refine ih _ q (IsQueue_shift s q d h) hlegal (by omega) hnz
        (Linked_shift s.bufs d q q (fun a ha => ha) hl) ?_ ?_
      · intro a ha
        have := hle a ha
        simp only [ha, if_true, shiftBuf]
        omega
      · intro z hz
        have hmem : z ∈ q := List.mem_of_getLast?_eq_some hz
        have := ht z hz
        simp only [aout_FifoNextStart, aout_DateGet] at this
        simp only [aout_FifoNextStart, aout_DateGet, aout_DateMove, hmem, if_true, shiftBuf]
        rw [this]

/-- C22: from `init(rate)` with a 32-bit rate `> 0` followed by `reset(T0)`,
run any sequence of push, pop and shift (a reset inside the sequence is
covered as well) that respects the ownership rule and during which the clock
date is nonzero at every push, with fuel for the length of the sequence. The
run ends in a state that holds the queue the sequence leaves, and in it each
queued buffer starts at the end date of the buffer queued just before it,
no queued buffer ends before it starts, and when the queue is not empty the
buffer at its tail ends at the clock date, the value `aout_FifoNextStart`
returns. That `T0` is nonzero is what the condition on the clock says at a
first push; the statement holds for every `T0`. -/
theorem gap_free_timeline (w fuel rate : Nat) (s0 : aout_state) (T0 : Int)
    (ops : List QueueOp) (_hrate : 0 < rate) (_hrate32 : rate < 2 ^ 32)
    (hlegal : legalOps [] ops = true) (hfuel : ops.length ≤ fuel)
    (hnz : clockNonzeroAtPushes w fuel (.reset T0 :: ops) (aout_FifoInit s0 rate) = true) :
    ∃ s, runQueue w fuel (.reset T0 :: ops) (aout_FifoInit s0 rate) = some s ∧
      IsQueue s (queueAfter [] ops) ∧
      Linked s.bufs (queueAfter [] ops) ∧
      (∀ a ∈ queueAfter [] ops, (s.bufs a).start_date ≤ (s.bufs a).end_date) ∧
      (∀ z, (queueAfter [] ops).getLast? = some z →
        (s.bufs z).end_date = aout_FifoNextStart s) := by
  have hset := aout_FifoSet_eq fuel (aout_FifoInit s0 rate) [] T0 (IsQueue_init s0 rate)
    (Nat.zero_le _)
  simp only [clockNonzeroAtPushes, hset] at hnz
  simp only [runQueue, hset, Option.some_bind]
  exact runQueue_gapfree w fuel ops _ [] ⟨rfl, List.nodup_nil, rfl⟩ hlegal
    (by simpa using hfuel) hnz trivial (by intro a ha; simp at ha) (by intro z hz; simp at hz)

/-- C22 on `demo` at 48000 Hz from `T0 = 1000000`, on a run with a shift in
it that ends with the buffers 2 and 0 queued. -/
theorem gap_free_timeline_witness :
    ∃ s, runQueue 32 7
        (.reset 1000000 ::
          [.push 0, .push 1, .pop, .shift (-250), .push 2, .pop, .push 0])
        (aout_FifoInit demo 48000) = some s ∧
      IsQueue s (queueAfter []
        [.push 0, .push 1, .pop, .shift (-250), .push 2, .pop, .push 0]) ∧
      Linked s.bufs (queueAfter []
        [.push 0, .push 1, .pop, .shift (-250), .push 2, .pop, .push 0]) ∧
      (∀ a ∈ queueAfter []
          [.push 0, .push 1, .pop, .shift (-250), .push 2, .pop, .push 0],
        (s.bufs a).start_date ≤ (s.bufs a).end_date) ∧
      (∀ z, (queueAfter []
          [.push 0, .push 1, .pop, .shift (-250), .push 2, .pop, .push 0]).getLast?
            = some z →
        (s.bufs z).end_date = aout_FifoNextStart s) :=
  gap_free_timeline 32 7 48000 demo 1000000
    [.push 0, .push 1, .pop, .shift (-250), .push 2, .pop, .push 0]
    (by decide) (by decide) (by decide) (by decide) (by decide)

end Aout
